import Mathlib

/-!
Verification of the tag-attribute-patcher maintenance scripts.

The scripts under `src/frontend/` are single-pass text editors over template
files.  We model file contents as `List Char` (`Str`), mirror the scripts'
regex search / attribute splicing / line re-assembly logic as executable
Lean functions, and prove (or refute) the behavioural claims made about
them.  Python strings are embedded as `List Char`; a Python regex search is
hand-compiled into a leftmost scan; `str.split('\n')` / `'\n'.join` become
`splitNl` / `joinNl`.
-/

abbrev Str := List Char

def lit (s : String) : Str := s.data

/-- Newline character, the line separator of every script. -/
def nlc : Char := Char.ofNat 10

/-- Double quote. -/
def dqc : Char := Char.ofNat 34

/-- Single quote. -/
def sqc : Char := Char.ofNat 39

/-- Opening curly brace. -/
def lbc : Char := Char.ofNat 123

/-- Closing curly brace. -/
def rbc : Char := Char.ofNat 125

/-- Hyphen. -/
def hyc : Char := '-'

/-- Python `\s` over the ASCII range: space, tab, newline, CR, VT, FF. -/
def isWs (c : Char) : Bool :=
  c == ' ' || c == Char.ofNat 9 || c == nlc || c == Char.ofNat 13 ||
  c == Char.ofNat 11 || c == Char.ofNat 12

/-- Python `\w` over the ASCII range (the scripts only meet ASCII markup). -/
def isWordC (c : Char) : Bool :=
  decide (97 ≤ c.toNat ∧ c.toNat ≤ 122) ||
  decide (65 ≤ c.toNat ∧ c.toNat ≤ 90) ||
  decide (48 ≤ c.toNat ∧ c.toNat ≤ 57) || c == '_'

/-- ASCII lower-casing of one character (`str.lower` on the scripts' input). -/
def lowerC (c : Char) : Char :=
  if 65 ≤ c.toNat ∧ c.toNat ≤ 90 then Char.ofNat (c.toNat + 32) else c

/-- `str.lower`. -/
def lowerS (s : Str) : Str := s.map lowerC

/-- `p` is a prefix of `s` (the anchored part of a regex match). -/
def pfx : Str → Str → Bool
  | [], _ => true
  | _ :: _, [] => false
  | a :: u, b :: v => a == b && pfx u v

/-- Number of positions of `s` where `r` matches (used for substring counting;
for the patterns of these scripts occurrences cannot overlap themselves, so
this agrees with Python's non-overlapping count). -/
def countOcc (r : Str) : Str → Nat
  | [] => 0
  | c :: t => (if pfx r (c :: t) then 1 else 0) + countOcc r t

/-- Python `r in s` for a nonempty needle `r`. -/
def hasSub (r : Str) : Str → Bool
  | [] => pfx r []
  | c :: t => pfx r (c :: t) || hasSub r t

/-- Python `c in s` for a single character. -/
def chMem (c : Char) (s : Str) : Bool := s.any (· == c)

/-- `content.split('\n')`. -/
def splitNl : Str → List Str
  | [] => [[]]
  | c :: t =>
    if c == nlc then [] :: splitNl t
    else
      match splitNl t with
      | [] => [[c]]
      | l :: ls => (c :: l) :: ls

/-- `'\n'.join(lines)` (specialised `joinSep`). -/
def joinNl : List Str → Str
  | [] => []
  | [l] => l
  | l :: l' :: ls => l ++ nlc :: joinNl (l' :: ls)

/-- `sep.join(parts)` with a one-character separator. -/
def joinSep (sep : Char) : List Str → Str
  | [] => []
  | [l] => l
  | l :: l' :: ls => l ++ sep :: joinSep sep (l' :: ls)

/-- Python `s.strip()` (whitespace from both ends). -/
def pyStripWs (s : Str) : Str :=
  ((s.dropWhile isWs).reverse.dropWhile isWs).reverse

/-- Python `s.strip('-')`. -/
def stripH (s : Str) : Str :=
  ((s.dropWhile (· == hyc)).reverse.dropWhile (· == hyc)).reverse

/-- Worker for `subRuns`: `inRun` records whether the previous character was
in the class (so the current run already emitted its hyphen). -/
def subRunsGo (p : Char → Bool) : Bool → Str → Str
  | _, [] => []
  | inRun, c :: t =>
    if p c then (if inRun then [] else [hyc]) ++ subRunsGo p true t
    else c :: subRunsGo p false t

/-- `re.sub(p+, '-', s)` for a character class `p`: each maximal run of
characters satisfying `p` becomes a single hyphen.  With `p = (· == '-')`
this is `re.sub(r'-+', '-', s)`. -/
def subRuns (p : Char → Bool) (s : Str) : Str := subRunsGo p false s

/-- `re.sub(r'-+', '-', s)`. -/
def collapseH : Str → Str := subRuns (· == hyc)

/-- `s.replace(a, b)` for one-character `a`, `b`. -/
def pyReplaceC (a b : Char) (s : Str) : Str :=
  s.map fun c => if c == a then b else c

/-- `s.replace(a, '')` for a one-character `a`. -/
def pyDeleteC (a : Char) (s : Str) : Str := s.filter (· != a)

/-- `re.sub(r'[^a-z0-9-]', '', s)`: keep only lowercase alphanumerics and
hyphens. -/
def isIdC (c : Char) : Bool :=
  decide (97 ≤ c.toNat ∧ c.toNat ≤ 122) ||
  decide (48 ≤ c.toNat ∧ c.toNat ≤ 57) || c == hyc

/-- `re.sub(r'[^a-zA-Z0-9]', '-', s)` (comprehensive variant's bind cleanup). -/
def isAlnumC (c : Char) : Bool :=
  decide (97 ≤ c.toNat ∧ c.toNat ≤ 122) ||
  decide (65 ≤ c.toNat ∧ c.toNat ≤ 90) ||
  decide (48 ≤ c.toNat ∧ c.toNat ≤ 57)

/-- `c` is in `[a-z0-9]` (comprehensive variant's placeholder cleanup class). -/
def isLowerDigit (c : Char) : Bool :=
  decide (97 ≤ c.toNat ∧ c.toNat ≤ 122) ||
  decide (48 ≤ c.toNat ∧ c.toNat ≤ 57)

/-- One digit character. -/
def digitC (n : Nat) : Char := Char.ofNat (48 + n)

def natStrGo : Nat → Nat → Str
  | 0, _ => []
  | f + 1, n =>
    if n < 10 then [digitC n]
    else natStrGo f (n / 10) ++ [digitC (n % 10)]

/-- Decimal rendering of a natural number (Python f-string interpolation). -/
def natStr (n : Nat) : Str := natStrGo (n + 1) n

/-- Worker for `replaceAll`: `skip` counts characters of a just-replaced
match that remain to be consumed (structural recursion on the text). -/
def replGo (p q : Str) : Str → Nat → Str
  | [], _ => []
  | _ :: t, skip + 1 => replGo p q t skip
  | c :: t, 0 =>
    if pfx p (c :: t) then q ++ replGo p q t (p.length - 1)
    else c :: replGo p q t 0

/-- `re.sub(p, q, s)` for a fixed literal pattern `p`: leftmost,
non-overlapping replacement, as `str.replace` / `re.sub` perform it
(for an empty `p` the scripts never call it; we return `s`). -/
def replaceAll (p q s : Str) : Str :=
  match p with
  | [] => s
  | _ :: _ => replGo p q s 0

example : replaceAll (lit "ab") (lit "x") (lit "cabdabab") = lit "cxdxx" := by decide
example : countOcc (lit "aa") (lit "aaa") = 2 := by decide
example : splitNl (lit "ab" ++ nlc :: lit "cd") = [lit "ab", lit "cd"] := by decide
example : joinNl [lit "ab", lit "cd"] = lit "ab" ++ nlc :: lit "cd" := by decide
example : collapseH (lit "a--b---c") = lit "a-b-c" := by decide
example : stripH (lit "--a-b--") = lit "a-b" := by decide
example : pyStripWs (lit "  a b ") = lit "a b" := by decide
example : natStr 105 = lit "105" := by decide
example : hasSub (lit "id") (lit "xidy") = true := by decide
example : subRuns (fun c => !isLowerDigit c) (lit "a b..c") = lit "a-b-c" := by decide

/-- Anchored attempt of `key\s*=` at the head of `s` (the tail of the
scripts' `\b<key>\s*=` regexes). -/
def attrAt (key : Str) (s : Str) : Bool :=
  if pfx key s then
    match (List.drop key.length s).dropWhile isWs with
    | c :: _ => c == '='
    | [] => false
  else false

/-- Scan for `\b<key>\s*=` at positions past the first: the previous
character must not be a word character. -/
def hasAttrGo (key : Str) : Str → Bool
  | [] => false
  | [_] => false
  | c :: d :: t => (!isWordC c && attrAt key (d :: t)) || hasAttrGo key (d :: t)

/-- `re.search(r'\b<key>\s*=', s) is not None` (the keys all start with a
word character, so the boundary holds automatically at position 0). -/
def hasAttr (key : Str) (s : Str) : Bool := attrAt key s || hasAttrGo key s

/-- Anchored attempt of `key\s*=\s*["']([^"']+)["']` at the head of `s`;
returns the captured group. -/
def quotedAt (key : Str) (s : Str) : Option Str :=
  if pfx key s then
    match (List.drop key.length s).dropWhile isWs with
    | c :: r2 =>
      if c == '=' then
        match r2.dropWhile isWs with
        | q :: r3 =>
          if q == dqc || q == sqc then
            match r3.takeWhile (fun x => !(x == dqc || x == sqc)),
                  r3.dropWhile (fun x => !(x == dqc || x == sqc)) with
            | v :: vs, _ :: _ => some (v :: vs)
            | _, _ => none
          else none
        | [] => none
      else none
    | [] => none
  else none

/-- `re.search(key + r'\s*=\s*["\']([^"\']+)["\']', s)`: leftmost match's
captured group. -/
def extractQuoted (key : Str) : Str → Option Str
  | [] => none
  | c :: t =>
    match quotedAt key (c :: t) with
    | some v => some v
    | none => extractQuoted key t

/-- Anchored attempt of `kw\s*=\s*\{([^}]+)\}` at the head of `s`. -/
def bindAt (kw : Str) (s : Str) : Option Str :=
  if pfx kw s then
    match (List.drop kw.length s).dropWhile isWs with
    | c :: r2 =>
      if c == '=' then
        match r2.dropWhile isWs with
        | b :: r3 =>
          if b == lbc then
            match r3.takeWhile (· != rbc), r3.dropWhile (· != rbc) with
            | v :: vs, _ :: _ => some (v :: vs)
            | _, _ => none
          else none
        | [] => none
      else none
    | [] => none
  else none

/-- batch_fix_inputs: `re.search(r'bind:value\s*=\s*\{([^}]+)\}', s)`. -/
def extractBatchBind : Str → Option Str
  | [] => none
  | c :: t =>
    match bindAt (lit "bind:value") (c :: t) with
    | some v => some v
    | none => extractBatchBind t

/-- One position of comprehensive_fix's `bind:(?:value|checked)` alternation
(`value` is tried first, as the regex engine does). -/
def compBindAt (s : Str) : Option Str :=
  match bindAt (lit "bind:value") s with
  | some v => some v
  | none => bindAt (lit "bind:checked") s

/-- comprehensive_fix: `re.search(r'bind:(?:value|checked)\s*=\s*\{([^}]+)\}', s)`. -/
def extractCompBind : Str → Option Str
  | [] => none
  | c :: t =>
    match compBindAt (c :: t) with
    | some v => some v
    | none => extractCompBind t

/-- Anchored attempt of `<input\s+` (greedy run): length of the match when it
starts here. -/
def markerWsAt (s : Str) : Option Nat :=
  if pfx (lit "<input") s then
    match (List.drop 6 s).takeWhile isWs with
    | [] => none
    | w => some (6 + w.length)
  else none

/-- `re.search(r'(<input)(\s+)', s).end()`: absolute end index of the
leftmost match. -/
def markerWsEnd : Str → Option Nat
  | [] => none
  | c :: t =>
    match markerWsAt (c :: t) with
    | some e => some e
    | none => (markerWsEnd t).map (· + 1)

/-- Anchored attempt of `<input\s*` (zero or more). -/
def markerStarAt (s : Str) : Option Nat :=
  if pfx (lit "<input") s then some (6 + ((List.drop 6 s).takeWhile isWs).length)
  else none

/-- `re.search(r'<input\s*', s).end()`: leftmost match. -/
def markerStarEnd : Str → Option Nat
  | [] => none
  | c :: t =>
    match markerStarAt (c :: t) with
    | some e => some e
    | none => (markerStarEnd t).map (· + 1)

/-- batch_fix_inputs.fix_input_tag's two-step marker search:
`<input\s+` first, then the `<input\s*` fallback. -/
def batchMarkerEnd (s : Str) : Option Nat :=
  match markerWsEnd s with
  | some e => some e
  | none => markerStarEnd s

/-- Split on an arbitrary separator character (used with '/' for
`pathlib.Path` component access). -/
def splitSep (sep : Char) : Str → List Str
  | [] => [[]]
  | c :: t =>
    if c == sep then [] :: splitSep sep t
    else
      match splitSep sep t with
      | [] => [[c]]
      | l :: ls => (c :: l) :: ls

/-- `Path(fp).name`: the last '/'-separated component. -/
def pathName (fp : Str) : Str := (splitSep '/' fp).getLastD []

/-- `Path(fp).parent.name`: the next-to-last '/'-separated component, `''`
when there is none (as for `Path("x.svelte").parent.name`).  Modelled from
pathlib's behaviour on the plain relative paths the scripts walk. -/
def parentName (fp : Str) : Str :=
  match (splitSep '/' fp).reverse with
  | _ :: p :: _ => p
  | _ => []

/-- `Path(fp).stem`: the last component minus its final extension.  Modelled
from pathlib for plain relative paths: the part of the name before its last
dot, or the whole name when that dot is leading, trailing or absent. -/
def stemOf (fp : Str) : Str :=
  let nm := pathName fp
  match nm.reverse.takeWhile (· != '.'), nm.reverse.dropWhile (· != '.') with
  | after, _ :: pre =>
    if after.isEmpty then nm
    else if pre.isEmpty then nm
    else pre.reverse
  | _, [] => nm

example : stemOf (lit "x/blog/+page.svelte") = lit "+page" := by decide
example : parentName (lit "x/blog/+page.svelte") = lit "blog" := by decide
example : parentName (lit "page.svelte") = lit "" := by decide
example : stemOf (lit "page.svelte") = lit "page" := by decide

/-- batch_fix_inputs.generate_id_from_context (its `file_context` parameter
is unused by the source; both returned components are the same string, so we
return it once). -/
def generateIdFromContext (inputTag : Str) (lineNum : Nat) (fileContext : Str) : Str :=
  let _ := fileContext
  let inputType := (extractQuoted (lit "type") inputTag).getD (lit "text")
  let placeholder := (extractQuoted (lit "placeholder") inputTag).getD []
  let bindVar := (extractBatchBind inputTag).getD []
  let className := (extractQuoted (lit "class") inputTag).getD []
  let idName :=
    if !bindVar.isEmpty then
      let cleanVar := pyDeleteC ']' (pyReplaceC '[' hyc (pyReplaceC '.' hyc (pyStripWs bindVar)))
      lit "input-" ++ cleanVar
    else if !placeholder.isEmpty then
      let cleanPh := List.take 30 (replaceAll (lit "...") [] (pyReplaceC ' ' hyc (lowerS placeholder)))
      lit "input-" ++ cleanPh
    else if hasSub (lit "search") (lowerS className) || hasSub (lit "search") (lowerS inputTag) then
      lit "search-input-" ++ natStr lineNum
    else if hasSub (lit "checkbox") inputType then lit "checkbox-" ++ natStr lineNum
    else if hasSub (lit "radio") inputType then lit "radio-" ++ natStr lineNum
    else if hasSub (lit "date") inputType then lit "date-input-" ++ natStr lineNum
    else inputType ++ lit "-input-" ++ natStr lineNum
  stripH (collapseH ((lowerS idName).filter isIdC))

/-- comprehensive_fix.generate_smart_id (both returned components are the
same string, so we return it once). -/
def generateSmartId (inputTag : Str) (filePath : Str) (lineNum : Nat) : Str :=
  let inputType := (extractQuoted (lit "type") inputTag).getD (lit "text")
  let placeholder := (extractQuoted (lit "placeholder") inputTag).getD []
  let bindVar := pyStripWs ((extractCompBind inputTag).getD [])
  let className := (extractQuoted (lit "class") inputTag).getD []
  let fileName := stemOf filePath
  let parentDir := parentName filePath
  let ctxParts : List Str :=
    if parentDir == lit "blog" || parentDir == lit "courses" || parentDir == lit "products" ||
       parentDir == lit "videos" || parentDir == lit "boards" then [parentDir]
    else if !(fileName == lit "page" || fileName == lit "layout" || fileName == lit "index") then
      [pyDeleteC '+' fileName]
    else []
  let semParts : List Str :=
    if !bindVar.isEmpty then
      [stripH (collapseH (bindVar.map fun c => if isAlnumC c then c else hyc))]
    else if !placeholder.isEmpty then
      let cleanPh := stripH (subRuns (fun c => !isLowerDigit c) (List.take 30 (lowerS placeholder)))
      if !cleanPh.isEmpty then [cleanPh] else []
    else
      (if hasSub (lit "search") (lowerS className) || hasSub (lit "search") (lowerS inputTag) then
        [lit "search"]
       else if hasSub (lit "filter") (lowerS className) then [lit "filter"]
       else if hasSub (lit "select") (lowerS className) then [lit "select"]
       else []) ++ [inputType]
  let idParts0 := ctxParts ++ semParts
  let idParts := if idParts0.isEmpty then [inputType, natStr lineNum] else idParts0
  List.take 50 (collapseH (lowerS (joinSep hyc idParts)))

example :
    generateSmartId (lit "<input bind:value=" ++ lbc :: '_' :: rbc :: ['>'])
      (lit "x/blog/+page.svelte") 1 = lit "blog-" := by decide

example : generateIdFromContext (lit "<input ") 1 [] = lit "text-input-1" := by decide

/-- final_comprehensive_fix.AUTOCOMPLETE_MAP['text'], in source (insertion)
order. -/
def textAutoMap : List (Str × Str) :=
  [(lit "username", lit "username"), (lit "name", lit "name"),
   (lit "first", lit "given-name"), (lit "last", lit "family-name"),
   (lit "phone", lit "tel"), (lit "address", lit "street-address"),
   (lit "city", lit "address-level2"), (lit "state", lit "address-level1"),
   (lit "zip", lit "postal-code"), (lit "country", lit "country-name")]

/-- First key of the table that is a substring of the id value wins. -/
def textAutoLookup (idLower : Str) : List (Str × Str) → Str
  | [] => []
  | (k, v) :: rest => if hasSub k idLower then v else textAutoLookup idLower rest

/-- final_comprehensive_fix.get_autocomplete_value ('' encoded as `[]`). -/
def getAutocompleteValue (inputTag : Str) (inputType : Str) (idVal : Str) : Str :=
  if inputType == lit "password" then
    if hasSub (lit "new") (lowerS inputTag) || hasSub (lit "confirm") (lowerS inputTag) then
      lit "new-password"
    else lit "current-password"
  else if inputType == lit "email" then lit "email"
  else if inputType == lit "tel" then lit "tel"
  else if inputType == lit "text" then textAutoLookup (lowerS idVal) textAutoMap
  else []

/-- Anchored attempt of `key\s*=\s*["']([^"']+)["']` together with the
match's length (final_comprehensive_fix uses both `.group(1)` and `.end()`
of its `has_id` match). -/
def quotedAtLen (key : Str) (s : Str) : Option (Str × Nat) :=
  if pfx key s then
    let r1 := List.drop key.length s
    let w1 := r1.takeWhile isWs
    match r1.dropWhile isWs with
    | c :: r2 =>
      if c == '=' then
        let w2 := r2.takeWhile isWs
        match r2.dropWhile isWs with
        | q :: r3 =>
          if q == dqc || q == sqc then
            match r3.takeWhile (fun x => !(x == dqc || x == sqc)),
                  r3.dropWhile (fun x => !(x == dqc || x == sqc)) with
            | v :: vs, _ :: _ =>
              some (v :: vs, key.length + w1.length + 1 + w2.length + 1 + (v :: vs).length + 1)
            | _, _ => none
          else none
        | [] => none
      else none
    | [] => none
  else none

/-- Scan tail for `\bkey\s*=\s*["']([^"']+)["']` keeping the absolute end
index; `prev` is the character before the current position (for `\b`). -/
def idQuotedGo (key : Str) : Char → Str → Nat → Option (Str × Nat)
  | _, [], _ => none
  | prev, c :: t, pos =>
    match (if !isWordC prev then quotedAtLen key (c :: t) else none) with
    | some (v, len) => some (v, pos + len)
    | none => idQuotedGo key c t (pos + 1)

/-- `re.search(r'\b<key>\s*=\s*["\']([^"\']+)["\']', s)`: captured value and
the match's end index (the keys start with a word character, so the boundary
holds automatically at position 0). -/
def idQuotedSearch (key : Str) (s : Str) : Option (Str × Nat) :=
  match quotedAtLen key s with
  | some (v, len) => some (v, len)
  | none =>
    match s with
    | [] => none
    | c :: t => idQuotedGo key c t 1

/-- The quoted id value of the tag, `''` when the `\bid\s*=\s*["']...["']`
regex has no match (final_comprehensive_fix's `id_val`). -/
def finalIdVal (tag : Str) : Str :=
  match idQuotedSearch (lit "id") tag with
  | some (v, _) => v
  | none => []

/-- The `name="<id value>"` token final_comprehensive_fix.fix_input_tag adds
when name is missing and a quoted id is present. -/
def finalNamePart (tag : Str) : List Str :=
  if !hasAttr (lit "name") tag && !(finalIdVal tag).isEmpty then
    [lit "name=" ++ dqc :: finalIdVal tag ++ [dqc]]
  else []

/-- The `autocomplete="..."` token final_comprehensive_fix.fix_input_tag
adds for password/email/tel fields without one. -/
def finalAutoPart (tag : Str) : List Str :=
  let inputType := (extractQuoted (lit "type") tag).getD (lit "text")
  if !hasAttr (lit "autocomplete") tag &&
      (inputType == lit "password" || inputType == lit "email" || inputType == lit "tel") then
    let av := getAutocompleteValue tag inputType (finalIdVal tag)
    if !av.isEmpty then [lit "autocomplete=" ++ dqc :: av ++ [dqc]] else []
  else []

/-- The `attrs_to_add` list final_comprehensive_fix.fix_input_tag builds. -/
def finalAttrsToAdd (tag : Str) : List Str :=
  finalNamePart tag ++ finalAutoPart tag

/-- final_comprehensive_fix.fix_input_tag (its `file_path`/`line_num`
arguments are unused by the source). -/
def finalFixInputTag (tag : Str) : Str :=
  if hasSub (lit "hidden") tag then tag
  else
    let attrsToAdd := finalAttrsToAdd tag
    if attrsToAdd.isEmpty then tag
    else
      match idQuotedSearch (lit "id") tag with
      | some (_, e) => List.take e tag ++ ' ' :: joinSep ' ' attrsToAdd ++ List.drop e tag
      | none =>
        match markerWsEnd tag with
        | some e => List.take e tag ++ joinSep ' ' attrsToAdd ++ ' ' :: List.drop e tag
        | none => tag

/-- batch_fix_inputs.fix_input_tag. -/
def batchFixInputTag (tag : Str) (idName nameAttr : Str) : Str :=
  let hasId := hasAttr (lit "id") tag
  let hasName := hasAttr (lit "name") tag
  if hasId && hasName then tag
  else
    match batchMarkerEnd tag with
    | none => tag
    | some e =>
      let attrs : List Str :=
        (if !hasId then [lit "id=" ++ dqc :: idName ++ [dqc]] else []) ++
        (if !hasName then [lit "name=" ++ dqc :: nameAttr ++ [dqc]] else [])
      List.take e tag ++ joinSep ' ' attrs ++ ' ' :: List.drop e tag

/-- The attribute text comprehensive_fix.fix_input_in_content splices in:
`id="v" name="v" `. -/
def compAttrs (v : Str) : Str :=
  lit "id=" ++ dqc :: v ++ dqc :: ' ' :: lit "name=" ++ dqc :: v ++ dqc :: [' ']

/-- The per-tag transformation comprehensive_fix.fix_input_in_content applies
to one collected tag occurrence: skip when `hidden` occurs in it, skip when
an id or name attribute is present, otherwise splice `id`/`name` right after
the `<input` marker's whitespace run (unchanged when `<input\s+` has no
match). -/
def compFixTag (filePath : Str) (lineNum : Nat) (tag : Str) : Str :=
  if hasSub (lit "hidden") tag then tag
  else if hasAttr (lit "id") tag || hasAttr (lit "name") tag then tag
  else
    match markerWsEnd tag with
    | none => tag
    | some e =>
      List.take e tag ++ compAttrs (generateSmartId tag filePath lineNum) ++ List.drop e tag

example :
    finalFixInputTag (lit "<input id=" ++ dqc :: 'e' :: dqc :: lit " type=" ++ dqc :: lit "email" ++ [dqc, '>']) =
      lit "<input id=" ++ dqc :: 'e' :: dqc :: lit " name=" ++ dqc :: 'e' :: dqc ::
      lit " autocomplete=" ++ dqc :: lit "email" ++ dqc :: lit " type=" ++ dqc :: lit "email" ++ [dqc, '>'] := by
  decide

example :
    finalFixInputTag (lit "<input type=" ++ dqc :: lit "password" ++ dqc :: lit " class=" ++ dqc :: 'x' :: [dqc, '>']) =
      lit "<input autocomplete=" ++ dqc :: lit "current-password" ++ dqc :: ' ' ::
      lit "type=" ++ dqc :: lit "password" ++ dqc :: lit " class=" ++ dqc :: 'x' :: [dqc, '>'] := by
  decide

example :
    finalFixInputTag (lit "<input id = " ++ sqc :: lit "user" ++ sqc :: lit "  type=" ++ dqc :: lit "text" ++ [dqc, '>']) =
      lit "<input id = " ++ sqc :: lit "user" ++ sqc :: lit " name=" ++ dqc :: lit "user" ++ dqc ::
      lit "  type=" ++ dqc :: lit "text" ++ [dqc, '>'] := by
  decide

example :
    batchFixInputTag (lit "<input id=" ++ dqc :: 'x' :: dqc :: lit " type=" ++ dqc :: lit "text" ++ [dqc, '>'])
        (lit "g") (lit "g") =
      lit "<input name=" ++ dqc :: 'g' :: dqc :: lit " id=" ++ dqc :: 'x' :: dqc ::
      lit " type=" ++ dqc :: lit "text" ++ [dqc, '>'] := by
  decide

example :
    batchFixInputTag (lit "<input>") (lit "g") (lit "g") =
      lit "<inputid=" ++ dqc :: 'g' :: dqc :: lit " name=" ++ dqc :: 'g' :: dqc :: lit " >" := by
  decide

/-- The tag re-assembly loop (enhanced_scan / fix_form_fields / batch /
comprehensive all share it): grow the buffer with the next line while it
holds no `>` and lines remain.  comprehensive tests `''.join` of the same
lines, which holds `>` exactly when this `'\n'`-joined buffer does. -/
def collectGo (lines : List Str) : Nat → Str → Nat → Str × Nat
  | 0, acc, i => (acc, i)
  | f + 1, acc, i =>
    if !chMem '>' acc && i < lines.length - 1 then
      collectGo lines f (acc ++ nlc :: lines.getD (i + 1) []) (i + 1)
    else (acc, i)

/-- Reassemble the tag occurrence starting at 0-based line `i`: the buffer
and the 0-based index of its last line. -/
def collectFrom (lines : List Str) (i : Nat) : Str × Nat :=
  collectGo lines lines.length (lines.getD i []) i

/-- enhanced_scan.check_input_violations' view of one occurrence: the tag
text and the reported 1-based starting line number (`line_start = i + 1`). -/
def scanTagAt (lines : List Str) (i : Nat) : Str × Nat :=
  ((collectFrom lines i).1, i + 1)

/-- batch_fix_inputs lines 127-131: write `pieces` over `newLines` from
`start` on, overwriting existing indices and appending (at the end) past
them. -/
def spliceAppend (newLines : List Str) (start : Nat) : List Str → List Str
  | [] => newLines
  | l :: ls =>
    if start < newLines.length then spliceAppend (newLines.set start l) (start + 1) ls
    else spliceAppend (newLines ++ [l]) (start + 1) ls

/-- comprehensive_fix lines 117-119: overwrite `lines` from `start` with
`pieces`; pieces falling past the end are dropped. -/
def spliceSet (lines : List Str) (start : Nat) : List Str → List Str
  | [] => lines
  | l :: ls =>
    if start < lines.length then spliceSet (lines.set start l) (start + 1) ls
    else spliceSet lines (start + 1) ls

/-- batch_fix_inputs.fix_file's while loop over the line list (file I/O
stripped; `content` is the unused `file_context` argument of the id
generator).  Returns the `new_lines` list and the fixed count. -/
def batchLoop (content : Str) (lines : List Str) :
    Nat → Nat → List Str → Nat → List Str × Nat
  | 0, _, newLines, count => (newLines, count)
  | f + 1, i, newLines, count =>
    if i < lines.length then
      let line := lines.getD i []
      if hasSub (lit "<input") line && !hasSub (lit "hidden") line then
        let tagJ := collectFrom lines i
        if !hasAttr (lit "id") tagJ.1 && !hasAttr (lit "name") tagJ.1 then
          let idName := generateIdFromContext tagJ.1 (i + 1) content
          let fixedTag := batchFixInputTag tagJ.1 idName idName
          if fixedTag ≠ tagJ.1 then
            let tagLines := splitNl fixedTag
            batchLoop content lines f (i + tagLines.length)
              (spliceAppend newLines i tagLines) (count + 1)
          else batchLoop content lines f (tagJ.2 + 1) (newLines ++ [line]) count
        else batchLoop content lines f (tagJ.2 + 1) (newLines ++ [line]) count
      else batchLoop content lines f (i + 1) (newLines ++ [line]) count
    else (newLines, count)

/-- batch_fix_inputs.fix_file on content: the rewritten content and the
fixed count (the file is rewritten with `'\n'.join(new_lines)` only when the
count is positive and the run is not a dry run; see `batchFixFileE`). -/
def batchFixContent (content : Str) : Str × Nat :=
  let lines := splitNl content
  let r := batchLoop content lines (lines.length + 1) 0 [] 0
  (joinNl r.1, r.2)

/-- comprehensive_fix.fix_input_in_content's while loop. -/
def compLoop (filePath : Str) : Nat → List Str → Nat → Nat → List Str × Nat
  | 0, lines, _, count => (lines, count)
  | f + 1, lines, i, count =>
    if i < lines.length then
      let line := lines.getD i []
      if hasSub (lit "<input") line then
        let tagJ := collectFrom lines i
        if hasSub (lit "hidden") tagJ.1 then
          compLoop filePath f lines (tagJ.2 + 1) count
        else if !hasAttr (lit "id") tagJ.1 && !hasAttr (lit "name") tagJ.1 then
          match markerWsEnd tagJ.1 with
          | some e =>
            let v := generateSmartId tagJ.1 filePath (i + 1)
            let fixedInput := List.take e tagJ.1 ++ compAttrs v ++ List.drop e tagJ.1
            compLoop filePath f (spliceSet lines i (splitNl fixedInput)) (tagJ.2 + 1) (count + 1)
          | none => compLoop filePath f lines (tagJ.2 + 1) count
        else compLoop filePath f lines (tagJ.2 + 1) count
      else compLoop filePath f lines (i + 1) count
    else (lines, count)

/-- comprehensive_fix.fix_input_in_content. -/
def fixInputInContent (content : Str) (filePath : Str) : Str × Nat :=
  let lines := splitNl content
  let r := compLoop filePath (lines.length + 1) lines 0 0
  (joinNl r.1, r.2)

example :
    batchFixContent (lit "<input " ++ [nlc]) =
      (lit "<input " ++ nlc :: lit "id=" ++ dqc :: lit "text-input-1" ++ dqc ::
       lit " name=" ++ dqc :: lit "text-input-1" ++ dqc :: [' '], 1) := by decide

example :
    batchFixContent (lit "<input " ++ nlc :: lit "id=" ++ dqc :: lit "text-input-1" ++ dqc ::
       lit " name=" ++ dqc :: lit "text-input-1" ++ dqc :: [' ']) = (lit "<input ", 0) := by decide

example :
    batchFixContent (lit "<input type=" ++ dqc :: lit "text" ++ dqc :: nlc ::
        lit " data-x=" ++ dqc :: lit "hidden" ++ [dqc, '>']) =
      (lit "<input id=" ++ dqc :: lit "text-input-1" ++ dqc :: lit " name=" ++ dqc ::
       lit "text-input-1" ++ dqc :: lit " type=" ++ dqc :: lit "text" ++ dqc :: nlc ::
       lit " data-x=" ++ dqc :: lit "hidden" ++ [dqc, '>'], 1) := by decide

example :
    fixInputInContent (lit "<input type=" ++ dqc :: 'a' :: nlc :: 'b' :: dqc :: '>' :: nlc :: lit "XYZ")
        (lit "page.svelte") =
      (lit "<input id=" ++ dqc :: 'a' :: nlc :: 'b' :: dqc :: lit " name=" ++ dqc :: 'a' :: nlc ::
       'b' :: dqc :: lit " type=" ++ dqc :: ['a'], 1) := by decide

/-- The single-quoted needle of fix_console.has_logger_import. -/
def importFromSq : Str := lit "from " ++ sqc :: lit "$lib/utils/logger" ++ [sqc]

/-- The double-quoted needle of fix_console.has_logger_import. -/
def importFromDq : Str := lit "from " ++ dqc :: lit "$lib/utils/logger" ++ [dqc]

/-- fix_console.has_logger_import. -/
def hasLoggerImport (content : Str) : Bool :=
  hasSub importFromSq content || hasSub importFromDq content

/-- The import line fix_console.add_logger_import inserts. -/
def loggerImportLine : Str :=
  lit "import " ++ lbc :: lit " logger " ++ rbc :: lit " from " ++
  sqc :: lit "$lib/utils/logger" ++ [sqc, ';']

/-- Python `list.insert(k, x)` (appends when `k` is past the end). -/
def insertAt : Nat → Str → List Str → List Str
  | 0, x, ls => x :: ls
  | _ + 1, x, [] => [x]
  | k + 1, x, l :: ls => l :: insertAt k x ls

/-- Index of the last line whose `strip()` starts with `import `
(fix_console.add_logger_import's `last_import_idx`, `none` for -1). -/
def lastImportIdxGo : List Str → Nat → Option Nat → Option Nat
  | [], _, best => best
  | l :: rest, i, best =>
    lastImportIdxGo rest (i + 1) (if pfx (lit "import ") (pyStripWs l) then some i else best)

/-- Where add_logger_import inserts: right after the last import line, or at
the top when there is none. -/
def importInsertPos (content : Str) : Nat :=
  match lastImportIdxGo (splitNl content) 0 none with
  | some k => k + 1
  | none => 0

/-- fix_console.add_logger_import. -/
def addLoggerImport (content : Str) : Str :=
  joinNl (insertAt (importInsertPos content) loggerImportLine (splitNl content))

/-- fix_console.replace_console_statements: five sequential substitutions. -/
def replaceConsoleStatements (content : Str) : Str :=
  let c1 := replaceAll (lit "console.debug(") (lit "logger.debug(") content
  let c2 := replaceAll (lit "console.error(") (lit "logger.error(") c1
  let c3 := replaceAll (lit "console.warn(") (lit "logger.warn(") c2
  let c4 := replaceAll (lit "console.info(") (lit "logger.info(") c3
  replaceAll (lit "console.log(") (lit "logger.info(") c4

/-- Whether `re.search(r'console\.(debug|error|warn|info|log)\(', content)`
matches: one of the five literal calls occurs. -/
def hasConsoleCall (content : Str) : Bool :=
  hasSub (lit "console.debug(") content || hasSub (lit "console.error(") content ||
  hasSub (lit "console.warn(") content || hasSub (lit "console.info(") content ||
  hasSub (lit "console.log(") content

/-- fix_console.fix_file on content (file I/O stripped): unchanged when no
console call is present, otherwise import insertion (if missing) followed by
the substitutions. -/
def fixConsoleContent (content : Str) : Str :=
  if !hasConsoleCall content then content
  else
    replaceConsoleStatements
      (if !hasLoggerImport content then addLoggerImport content else content)

/-- A file system for the drivers: path to read outcome; `Except.error`
models `open`/`read` raising (e.g. a decode error), an absent path a file
that fails `os.path.exists`. -/
abbrev FileSys := List (Str × Except Str Str)

def fsRead (fs : FileSys) (p : Str) : Except Str Str :=
  match fs.find? (fun e => e.fst == p) with
  | some e => e.snd
  | none => Except.error (lit "FileNotFoundError")

def fsWrite (fs : FileSys) (p : Str) (c : Str) : FileSys :=
  fs.map fun e => if e.fst == p then (e.fst, Except.ok c) else e

/-- comprehensive_fix.process_file: the whole body is inside try/except, so
a raising read is caught and reported as 0 fixes, leaving the file system
untouched; the file is rewritten only when the count is positive. -/
def compProcessFile (fs : FileSys) (p : Str) : FileSys × Nat :=
  match fsRead fs p with
  | Except.error _ => (fs, 0)
  | Except.ok content =>
    let r := fixInputInContent content p
    if r.2 > 0 then (fsWrite fs p r.1, r.2) else (fs, r.2)

/-- comprehensive_fix.scan_and_fix_directory's per-file fold: every file is
processed in order, each yielding its own count. -/
def compProcessAll (fs : FileSys) : List Str → FileSys × List Nat
  | [] => (fs, [])
  | p :: ps =>
    let r1 := compProcessFile fs p
    let r2 := compProcessAll r1.1 ps
    (r2.1, r1.2 :: r2.2)

/-- batch_fix_inputs.fix_file with its file I/O: `open`/`read` may raise and
batch_fix_inputs has no try/except anywhere, so the exception propagates to
the caller. -/
def batchFixFileE (fs : FileSys) (p : Str) (dryRun : Bool) : Except Str (FileSys × Nat) :=
  match fsRead fs p with
  | Except.error e => Except.error e
  | Except.ok content =>
    let r := batchFixContent content
    if r.2 > 0 && !dryRun then Except.ok (fsWrite fs p r.1, r.2)
    else Except.ok (fs, r.2)

/-- batch_fix_inputs.__main__'s loop over priority_files: existence is
checked, but the per-file call has no exception handler, so an error aborts
the remaining files. -/
def batchMain (fs : FileSys) (dryRun : Bool) : List Str → Except Str (FileSys × Nat)
  | [] => Except.ok (fs, 0)
  | p :: ps =>
    if (fs.find? (fun e => e.fst == p)).isSome then
      match batchFixFileE fs p dryRun with
      | Except.error e => Except.error e
      | Except.ok r1 =>
        match batchMain r1.1 dryRun ps with
        | Except.error e => Except.error e
        | Except.ok r2 => Except.ok (r2.1, r1.2 + r2.2)
    else batchMain fs dryRun ps

/-- Every line of the list is free of newline characters (the invariant of
the scripts' `content.split('\n')` line lists). -/
def nlFree (ls : List Str) : Prop := ∀ l ∈ ls, chMem nlc l = false

/-- Round-trip sample for batch_fix_inputs.fix_file: a two-line tag whose
id and name sit on the continuation line, an unrelated line, and one
fixable tag. -/
def c1Round0 : Str := joinNl [
  lit "<input type=" ++ dqc :: lit "text" ++ [dqc],
  lit "id=" ++ dqc :: lit "a" ++ dqc :: lit " name=" ++ dqc :: lit "b" ++ [dqc, '>'],
  lit "ok>",
  lit "<input type=" ++ dqc :: lit "email" ++ [dqc, '>']]

/-- What fix_file writes on the first run over `c1Round0` (count 1): the
compliant two-line tag keeps only its first line, the fixable tag is
patched. -/
def c1Round1 : Str := joinNl [
  lit "<input type=" ++ dqc :: lit "text" ++ [dqc],
  lit "ok>",
  lit "<input id=" ++ dqc :: lit "email-input-4" ++ dqc :: lit " name=" ++
    dqc :: lit "email-input-4" ++ dqc :: lit " type=" ++ dqc :: lit "email" ++ [dqc, '>']]

/-- What fix_file writes on the second run over `c1Round1` (count 1): the
orphaned first line reassembles with the following line into a tag missing
id and name, which gets patched again. -/
def c1Round2 : Str := joinNl [
  lit "<input id=" ++ dqc :: lit "text-input-1" ++ dqc :: lit " name=" ++
    dqc :: lit "text-input-1" ++ dqc :: lit " type=" ++ dqc :: lit "text" ++ [dqc],
  lit "ok>",
  lit "<input id=" ++ dqc :: lit "email-input-4" ++ dqc :: lit " name=" ++
    dqc :: lit "email-input-4" ++ dqc :: lit " type=" ++ dqc :: lit "email" ++ [dqc, '>']]

/-- A four-line sample file for fix_console: no import line, three
console.log calls. -/
def c6Sample : Str :=
  lit "const a = 1;" ++ nlc :: lit "console.log(a);" ++
  nlc :: lit "console.log(b);" ++ nlc :: lit "console.log(c);"

/-- No nonempty proper suffix of `a` is a prefix of `r`: an occurrence of
`r` cannot straddle the boundary after `a` in `a ++ b` (decidable, used as
a side condition of the replacement-counting lemmas). -/
@[reducible] def noStraddle (a r : Str) : Prop :=
  ∀ j, j < r.length → 0 < j → j ≤ a.length →
    List.drop (a.length - j) a ≠ List.take j r

/-- No nonempty proper suffix of `r` is prefix-comparable with `x`
(decidable; rules out an occurrence of `r` resuming inside a replaced
span). -/
@[reducible] def suffCond (r x : Str) : Prop :=
  ∀ j, j < r.length → 0 < j →
    ¬(pfx (List.drop j r) x = true ∨ pfx x (List.drop j r) = true)

/-! ## Lemmas and claim theorems -/

theorem pfx_append_right {r a : Str} (b : Str) (h : pfx r a = true) :
    pfx r (a ++ b) = true := by
  induction r generalizing a with
  | nil => rfl
  | cons x u ih =>
    cases a with
    | nil => simp [pfx] at h
    | cons y v =>
      simp only [pfx, Bool.and_eq_true, beq_iff_eq] at h ⊢
      exact ⟨h.1, ih h.2⟩

theorem pfx_false_of_long {r a : Str} (h : a.length < r.length) : pfx r a = false := by
  induction r generalizing a with
  | nil => simp at h
  | cons x u ih =>
    cases a with
    | nil => rfl
    | cons y v =>
      simp only [pfx]
      cases hb : (x == y) with
      | false => simp
      | true =>
        simp only [Bool.true_and]
        exact ih (Nat.lt_of_succ_lt_succ h)

theorem chMem_append (c : Char) (a b : Str) :
    chMem c (a ++ b) = (chMem c a || chMem c b) := by
  simp [chMem, List.any_append]

theorem chMem_cons (c d : Char) (t : Str) :
    chMem c (d :: t) = ((d == c) || chMem c t) := by
  simp [chMem, List.any_cons]

theorem collectGo_stop {lines : List Str} {fuel : Nat} {acc : Str} {i : Nat}
    (h : chMem '>' acc = true ∨ ¬ i < lines.length - 1) :
    collectGo lines fuel acc i = (acc, i) := by
  cases fuel with
  | zero => rfl
  | succ f =>
    unfold collectGo
    rcases h with h | h
    · simp [h]
    · simp [h]

theorem collectGo_step {lines : List Str} (f : Nat) {acc : Str} {i : Nat}
    (h1 : chMem '>' acc = false) (h2 : i < lines.length - 1) :
    collectGo lines (f + 1) acc i =
      collectGo lines f (acc ++ nlc :: lines.getD (i + 1) []) (i + 1) := by
  conv_lhs => unfold collectGo
  simp [h1, h2]

/-- Claim C5: a tag whose marker sits on line `k` (0-based here; reported
1-based) and whose first `>` at or after line `k` sits on line `k + 2` is
reassembled as the concatenation of the three lines, and the reported
starting line number is the marker's 1-based line `k + 1`. -/
theorem C5_three_line_reassembly (lines : List Str) (k : Nat)
    (hlen : k + 2 < lines.length)
    (hmark : hasSub (lit "<input") (lines.getD k []) = true)
    (h0 : chMem '>' (lines.getD k []) = false)
    (h1 : chMem '>' (lines.getD (k + 1) []) = false)
    (h2 : chMem '>' (lines.getD (k + 2) []) = true) :
    scanTagAt lines k =
      (lines.getD k [] ++ nlc :: lines.getD (k + 1) [] ++ nlc :: lines.getD (k + 2) [],
       k + 1) := by
  have hk1 : k < lines.length - 1 := by omega
  have hk2 : k + 1 < lines.length - 1 := by omega
  have hacc1 : chMem '>' (lines.getD k [] ++ nlc :: lines.getD (k + 1) []) = false := by
    rw [chMem_append, chMem_cons, h0, h1]
    rfl
  have hacc2 :
      chMem '>' ((lines.getD k [] ++ nlc :: lines.getD (k + 1) []) ++
        nlc :: lines.getD (k + 2) []) = true := by
    rw [chMem_append, chMem_cons, h2]
    simp
  unfold scanTagAt collectFrom
  obtain ⟨f, hf⟩ : ∃ f, lines.length = f + 1 + 1 := ⟨lines.length - 2, by omega⟩
  rw [hf, collectGo_step (f + 1) h0 hk1, collectGo_step f hacc1 hk2,
    collectGo_stop (Or.inl hacc2)]

/-- Witness for C5 at a concrete three-line file. -/
theorem C5_witness :
    scanTagAt [lit "<input", lit " x", lit " y>"] 0 =
      (lit "<input" ++ nlc :: lit " x" ++ nlc :: lit " y>", 1) := by
  have h := C5_three_line_reassembly [lit "<input", lit " x", lit " y>"] 0
    (by decide) (by decide) (by decide) (by decide) (by decide)
  simpa using h

/-- Claim C3: the autocomplete resolver maps `password` to `new-password`
exactly when the tag text contains `new` or `confirm` case-insensitively
(the source lower-cases the tag and checks the lowercase needles) and to
`current-password` otherwise; `email` and `tel` map to themselves. -/
theorem C3_autocomplete_resolver (tag idVal : Str) :
    getAutocompleteValue tag (lit "password") idVal =
      (if hasSub (lit "new") (lowerS tag) || hasSub (lit "confirm") (lowerS tag)
       then lit "new-password" else lit "current-password") ∧
    getAutocompleteValue tag (lit "email") idVal = lit "email" ∧
    getAutocompleteValue tag (lit "tel") idVal = lit "tel" :=
  ⟨rfl, rfl, rfl⟩

/-- Counterexample for C1: batch_fix_inputs.fix_file is not idempotent at
file level, write guard included (the file is rewritten only when
fixed_count > 0).  On `c1Round0` the first run counts 1 fix (the fixable
tag) and writes `c1Round1`, in which the compliant two-line tag has lost
its continuation line; the second run reassembles the orphaned first line
with the following line into a tag missing id and name, counts 1 further
fix, and writes the different content `c1Round2` — so the second run
performs a modification and changes the file again. -/
theorem C1_second_run_changes_cex :
    batchFixFileE [(lit "a.svelte", Except.ok c1Round0)] (lit "a.svelte") false =
      Except.ok ([(lit "a.svelte", Except.ok c1Round1)], 1) ∧
    batchFixFileE [(lit "a.svelte", Except.ok c1Round1)] (lit "a.svelte") false =
      Except.ok ([(lit "a.svelte", Except.ok c1Round2)], 1) ∧
    c1Round2 ≠ c1Round1 := ⟨rfl, rfl, by decide⟩

/-- Counterexample for C2: batch_fix_inputs checks `hidden` only on the
tag's first line, so a tag whose `hidden` sits on a continuation line is
patched: the reassembled occurrence contains `hidden`, yet the patcher
changes the content. -/
theorem C2_batch_hidden_patched_cex :
    hasSub (lit "hidden")
      (collectFrom (splitNl (lit "<input type=" ++ dqc :: lit "text" ++ dqc :: nlc ::
        lit " data-x=" ++ dqc :: lit "hidden" ++ [dqc, '>'])) 0).1 = true ∧
    (batchFixContent (lit "<input type=" ++ dqc :: lit "text" ++ dqc :: nlc ::
        lit " data-x=" ++ dqc :: lit "hidden" ++ [dqc, '>'])).1 ≠
      lit "<input type=" ++ dqc :: lit "text" ++ dqc :: nlc ::
        lit " data-x=" ++ dqc :: lit "hidden" ++ [dqc, '>'] := by
  exact ⟨by decide, by decide⟩

/-- Claim C2 (amended): in the variants that test the reassembled tag text
(final_comprehensive_fix.fix_input_tag and the per-tag transformation of
comprehensive_fix), a tag containing `hidden` is returned unchanged. -/
theorem C2_hidden_tag_unchanged (tag fp : Str) (n : Nat)
    (h : hasSub (lit "hidden") tag = true) :
    finalFixInputTag tag = tag ∧ compFixTag fp n tag = tag := by
  constructor
  · unfold finalFixInputTag
    simp [h]
  · unfold compFixTag
    simp [h]

/-- Witness for C2's amended theorem at a concrete hidden tag. -/
theorem C2_hidden_tag_unchanged_witness :
    finalFixInputTag (lit "<input type=" ++ dqc :: lit "hidden" ++ [dqc, '>']) =
      lit "<input type=" ++ dqc :: lit "hidden" ++ [dqc, '>'] ∧
    compFixTag (lit "f.svelte") 1 (lit "<input type=" ++ dqc :: lit "hidden" ++ [dqc, '>']) =
      lit "<input type=" ++ dqc :: lit "hidden" ++ [dqc, '>'] :=
  C2_hidden_tag_unchanged _ _ 1 (by decide)

/-- Counterexample for C4: batch_fix_inputs' driver loop has no try/except,
so a file whose read raises aborts the whole batch (the third file of the
list holds a fixable input, but the run ends in the propagated error). -/
theorem C4_batch_abort_cex :
    batchMain
      [(lit "a.svelte", Except.ok (lit "x")),
       (lit "b.svelte", Except.error (lit "boom")),
       (lit "c.svelte", Except.ok (lit "<input y>"))] false
      [lit "a.svelte", lit "b.svelte", lit "c.svelte"] = Except.error (lit "boom") ∧
    (batchFixContent (lit "<input y>")).2 = 1 := by
  exact ⟨rfl, by decide⟩

/-- Claim C4 (amended): comprehensive_fix's process_file catches a failing
read, reports 0 fixes for that file and leaves the file system untouched, so
the driver's fold over the remaining files is unaffected. -/
theorem C4_comp_failure_isolated (fs : FileSys) (p : Str) (ps : List Str) (e : Str)
    (hfail : fsRead fs p = Except.error e) :
    compProcessAll fs (p :: ps) =
      ((compProcessAll fs ps).1, 0 :: (compProcessAll fs ps).2) := by
  have h1 : compProcessFile fs p = (fs, 0) := by
    unfold compProcessFile
    rw [hfail]
  simp [compProcessAll, h1]

/-- Witness for C4's amended theorem: one unreadable file. -/
theorem C4_comp_failure_isolated_witness :
    compProcessAll [(lit "bad.svelte", Except.error (lit "boom"))] [lit "bad.svelte"] =
      ([(lit "bad.svelte", Except.error (lit "boom"))], [0]) := by
  rw [C4_comp_failure_isolated [(lit "bad.svelte", Except.error (lit "boom"))]
    (lit "bad.svelte") [] (lit "boom") rfl]
  rfl

/-- Claim C8: when a processed file's fixed count is zero, the write step is
skipped and the file system is returned unchanged. -/
theorem C8_no_rewrite_when_unchanged (fs : FileSys) (p content : Str)
    (hread : fsRead fs p = Except.ok content)
    (hcount : (fixInputInContent content p).2 = 0) :
    compProcessFile fs p = (fs, 0) := by
  unfold compProcessFile
  rw [hread]
  simp [hcount]

/-- Witness for C8 at a file with no input tags. -/
theorem C8_witness :
    compProcessFile [(lit "a.svelte", Except.ok (lit "plain"))] (lit "a.svelte") =
      ([(lit "a.svelte", Except.ok (lit "plain"))], 0) :=
  C8_no_rewrite_when_unchanged _ _ (lit "plain") rfl (by decide)

/-- Counterexample for C7: batch_fix_inputs' splicer always inserts after
the `<input` marker, even when the tag already has an id: here `name="g"`
lands before the existing `id="x"`, not immediately after it. -/
theorem C7_batch_insert_before_id_cex :
    hasAttr (lit "id")
      (lit "<input id=" ++ dqc :: 'x' :: dqc :: lit " type=" ++ dqc :: lit "text" ++ [dqc, '>']) =
      true ∧
    batchFixInputTag
      (lit "<input id=" ++ dqc :: 'x' :: dqc :: lit " type=" ++ dqc :: lit "text" ++ [dqc, '>'])
      (lit "g") (lit "g") =
      lit "<input name=" ++ dqc :: 'g' :: dqc :: lit " id=" ++ dqc :: 'x' :: dqc ::
      lit " type=" ++ dqc :: lit "text" ++ [dqc, '>'] := by
  exact ⟨by decide, by decide⟩

/-- Claim C7 (amended, for final_comprehensive_fix.fix_input_tag): the
splicer never adds an attribute the tag already has, returns the tag
unchanged when nothing needs adding, inserts right after the quoted id
attribute when one is matched, and otherwise right after the `<input`
marker and its whitespace run. -/
theorem C7_final_splicer_rules (tag : Str) :
    (finalAttrsToAdd tag = [] → finalFixInputTag tag = tag) ∧
    (hasAttr (lit "name") tag = true →
      ∀ a ∈ finalAttrsToAdd tag, pfx (lit "name=") a = false) ∧
    (hasAttr (lit "autocomplete") tag = true →
      ∀ a ∈ finalAttrsToAdd tag, pfx (lit "autocomplete=") a = false) ∧
    (hasSub (lit "hidden") tag = false → finalAttrsToAdd tag ≠ [] →
      ∀ v e, idQuotedSearch (lit "id") tag = some (v, e) →
        finalFixInputTag tag =
          List.take e tag ++ ' ' :: joinSep ' ' (finalAttrsToAdd tag) ++ List.drop e tag) ∧
    (hasSub (lit "hidden") tag = false → finalAttrsToAdd tag ≠ [] →
      idQuotedSearch (lit "id") tag = none →
      ∀ e, markerWsEnd tag = some e →
        finalFixInputTag tag =
          List.take e tag ++ joinSep ' ' (finalAttrsToAdd tag) ++ ' ' :: List.drop e tag) := by
  refine ⟨?_, ?_, ?_, ?_, ?_⟩
  · intro h
    unfold finalFixInputTag
    by_cases hh : hasSub (lit "hidden") tag = true
    · simp [hh]
    · simp only [Bool.not_eq_true] at hh
      simp [hh, h]
  · intro h a ha
    have hnp : finalNamePart tag = [] := by
      unfold finalNamePart
      simp [h]
    unfold finalAttrsToAdd at ha
    rw [hnp, List.nil_append] at ha
    unfold finalAutoPart at ha
    dsimp only at ha
    split at ha
    · split at ha
      · simp only [List.mem_singleton] at ha
        subst ha
        rfl
      · simp at ha
    · simp at ha
  · intro h a ha
    have hap : finalAutoPart tag = [] := by
      unfold finalAutoPart
      simp [h]
    unfold finalAttrsToAdd at ha
    rw [hap, List.append_nil] at ha
    unfold finalNamePart at ha
    split at ha
    · simp only [List.mem_singleton] at ha
      subst ha
      rfl
    · simp at ha
  · intro h hne v e hid
    unfold finalFixInputTag
    rw [if_neg (by simp [h]), hid]
    have hA : (finalAttrsToAdd tag).isEmpty = false := by
      cases hAc : finalAttrsToAdd tag
      · exact absurd hAc hne
      · rfl
    simp [hA]
  · intro h hne hid e hm
    unfold finalFixInputTag
    rw [if_neg (by simp [h]), hid, hm]
    have hA : (finalAttrsToAdd tag).isEmpty = false := by
      cases hAc : finalAttrsToAdd tag
      · exact absurd hAc hne
      · rfl
    simp [hA]

/-- Witness for C7's amended theorem: name and autocomplete are spliced in
right after the existing quoted id attribute. -/
theorem C7_final_splicer_rules_witness :
    finalFixInputTag (lit "<input id=" ++ dqc :: 'e' :: dqc :: lit " type=" ++ dqc :: lit "email" ++ [dqc, '>']) =
      lit "<input id=" ++ dqc :: 'e' :: dqc :: lit " name=" ++ dqc :: 'e' :: dqc ::
      lit " autocomplete=" ++ dqc :: lit "email" ++ dqc :: lit " type=" ++ dqc :: lit "email" ++ [dqc, '>'] := by
  have h := (C7_final_splicer_rules
    (lit "<input id=" ++ dqc :: 'e' :: dqc :: lit " type=" ++ dqc :: lit "email" ++ [dqc, '>'])).2.2.2.1
    (by decide) (by decide) (lit "e") 13 (by decide)
  rw [h]
  decide

/-- Counterexample for C9: comprehensive_fix's identifier synthesizer never
strips hyphens, so an all-symbol bound variable under a context directory
yields the identifier `blog-` with a trailing hyphen. -/
theorem C9_trailing_hyphen_cex :
    generateSmartId (lit "<input bind:value=" ++ lbc :: '_' :: rbc :: ['>'])
      (lit "x/blog/+page.svelte") 1 = lit "blog-" ∧
    (generateSmartId (lit "<input bind:value=" ++ lbc :: '_' :: rbc :: ['>'])
      (lit "x/blog/+page.svelte") 1).getLast? = some hyc := by
  exact ⟨by decide, by decide⟩

/-- Counterexample for C10: the detected tag occupies lines 0-1, the spliced
attribute text contains a newline (the type value spans lines), and the line
`XYZ` outside the tag is overwritten by the splice. -/
theorem C10_outside_line_clobbered_cex :
    (collectFrom (splitNl (lit "<input type=" ++ dqc :: 'a' :: nlc :: 'b' :: dqc :: '>' ::
      nlc :: lit "XYZ")) 0).2 = 1 ∧
    (splitNl (lit "<input type=" ++ dqc :: 'a' :: nlc :: 'b' :: dqc :: '>' ::
      nlc :: lit "XYZ")).getD 2 [] = lit "XYZ" ∧
    fixInputInContent (lit "<input type=" ++ dqc :: 'a' :: nlc :: 'b' :: dqc :: '>' ::
      nlc :: lit "XYZ") (lit "page.svelte") =
      (lit "<input id=" ++ dqc :: 'a' :: nlc :: 'b' :: dqc :: lit " name=" ++ dqc :: 'a' ::
       nlc :: 'b' :: dqc :: lit " type=" ++ dqc :: ['a'], 1) ∧
    (splitNl (lit "<input id=" ++ dqc :: 'a' :: nlc :: 'b' :: dqc :: lit " name=" ++ dqc ::
      'a' :: nlc :: 'b' :: dqc :: lit " type=" ++ dqc :: ['a'])).getD 2 [] ≠ lit "XYZ" := by
  exact ⟨by decide, by decide, by decide, by decide⟩

theorem ws_not_word (c : Char) (h : isWs c = true) : isWordC c = false := by
  unfold isWs at h
  simp only [Bool.or_eq_true, beq_iff_eq] at h
  rcases h with ((((h | h) | h) | h) | h) | h <;> subst h <;> decide

theorem attrAt_id_compAttrs (v y : Str) : attrAt (lit "id") (compAttrs v ++ y) = true := rfl

theorem hasAttrGo_witness (key : Str) (a : Str) (w : Char) (rest : Str)
    (hw : isWordC w = false) (hat : attrAt key rest = true) (hne : rest ≠ []) :
    hasAttrGo key (a ++ w :: rest) = true := by
  induction a with
  | nil =>
    cases rest with
    | nil => exact absurd rfl hne
    | cons r rs =>
      show hasAttrGo key (w :: r :: rs) = true
      unfold hasAttrGo
      simp [hw, hat]
  | cons c a' ih =>
    cases hx : a' ++ w :: rest with
    | nil => simp at hx
    | cons d t =>
      show hasAttrGo key (c :: (a' ++ w :: rest)) = true
      rw [hx]
      unfold hasAttrGo
      rw [← hx, ih]
      simp

theorem takeWhile_take_eq (p : Char → Bool) (l : Str) :
    l.take (l.takeWhile p).length = l.takeWhile p := by
  induction l with
  | nil => rfl
  | cons c t ih =>
    by_cases h : p c
    · simp [List.takeWhile_cons, h, ih]
    · simp [List.takeWhile_cons, h]

theorem markerWsAt_take (s : Str) (e : Nat) (h : markerWsAt s = some e) :
    ∃ u w, List.take e s = u ++ [w] ∧ isWs w = true := by
  unfold markerWsAt at h
  split at h
  · cases hW : (List.drop 6 s).takeWhile isWs with
    | nil =>
      rw [hW] at h
      exact absurd h (by simp)
    | cons x xs =>
      rw [hW] at h
      have he : e = 6 + (x :: xs).length := (Option.some.inj h).symm
      have hWne : (x :: xs) ≠ ([] : Str) := by simp
      have htk : List.take ((x :: xs).length) (List.drop 6 s) = x :: xs := by
        rw [← hW]
        exact takeWhile_take_eq isWs (List.drop 6 s)
      have hall : ∀ a, a ∈ (x :: xs) → isWs a = true := by
        rw [← hW]
        exact fun a ha => List.mem_takeWhile_imp ha
      refine ⟨List.take 6 s ++ (x :: xs).dropLast, (x :: xs).getLast hWne, ?_,
        hall _ (List.getLast_mem hWne)⟩
      rw [he, List.take_add, htk, List.append_assoc, List.dropLast_append_getLast hWne]
  · exact absurd h (by simp)

theorem markerWsEnd_take (s : Str) (e : Nat) (h : markerWsEnd s = some e) :
    ∃ u w, List.take e s = u ++ [w] ∧ isWs w = true := by
  induction s generalizing e with
  | nil => simp [markerWsEnd] at h
  | cons c t ih =>
    unfold markerWsEnd at h
    cases hA : markerWsAt (c :: t) with
    | some e2 =>
      rw [hA] at h
      have he : e2 = e := by simpa using h
      rw [he] at hA
      exact markerWsAt_take (c :: t) e hA
    | none =>
      rw [hA] at h
      cases hE : markerWsEnd t with
      | none =>
        rw [hE] at h
        simp at h
      | some e2 =>
        rw [hE] at h
        have he : e = e2 + 1 := by
          simpa using h.symm
        obtain ⟨u, w, hu, hw⟩ := ih e2 hE
        refine ⟨c :: u, w, ?_, hw⟩
        rw [he]
        simp [List.take_succ_cons, hu]

theorem compAttrs_ne_nil (v y : Str) : compAttrs v ++ y ≠ [] := by
  unfold compAttrs
  simp

theorem hasAttr_id_of_patched (tag v : Str) (e : Nat) (h : markerWsEnd tag = some e) :
    hasAttr (lit "id") (List.take e tag ++ compAttrs v ++ List.drop e tag) = true := by
  obtain ⟨u, w, hu, hw⟩ := markerWsEnd_take tag e h
  have hfull : List.take e tag ++ compAttrs v ++ List.drop e tag =
      u ++ w :: (compAttrs v ++ List.drop e tag) := by
    rw [hu]
    simp
  rw [hfull]
  unfold hasAttr
  rw [hasAttrGo_witness (lit "id") u w (compAttrs v ++ List.drop e tag)
    (ws_not_word w hw) (attrAt_id_compAttrs v (List.drop e tag)) (compAttrs_ne_nil v _)]
  simp

/-- Claim C1 (amended): the per-tag patch of comprehensive_fix is
idempotent — a tag it patches carries an id afterwards (spliced right after
the marker's whitespace), so a second application (at any line number)
returns every tag unchanged. -/
theorem C1_tag_patch_idempotent (fp : Str) (n m : Nat) (tag : Str) :
    compFixTag fp m (compFixTag fp n tag) = compFixTag fp n tag := by
  by_cases h1 : hasSub (lit "hidden") tag = true
  · have e1 : compFixTag fp n tag = tag := by
      unfold compFixTag
      simp [h1]
    rw [e1]
    unfold compFixTag
    simp [h1]
  · have h1' : hasSub (lit "hidden") tag = false := by
      simpa using h1
    by_cases h2 : (hasAttr (lit "id") tag || hasAttr (lit "name") tag) = true
    · have e1 : compFixTag fp n tag = tag := by
        unfold compFixTag
        rw [if_neg (by simp [h1']), if_pos (by simp_all)]
      rw [e1]
      unfold compFixTag
      rw [if_neg (by simp [h1']), if_pos (by simp_all)]
    · have h2' : (hasAttr (lit "id") tag || hasAttr (lit "name") tag) = false := by
        simpa using h2
      cases hm : markerWsEnd tag with
      | none =>
        have e1 : compFixTag fp n tag = tag := by
          unfold compFixTag
          rw [if_neg (by simp [h1']), if_neg (by simp_all), hm]
        rw [e1]
        unfold compFixTag
        rw [if_neg (by simp [h1']), if_neg (by simp_all), hm]
      | some e =>
        have e1 : compFixTag fp n tag =
            List.take e tag ++ compAttrs (generateSmartId tag fp n) ++ List.drop e tag := by
          unfold compFixTag
          rw [if_neg (by simp [h1']), if_neg (by simp_all), hm]
        rw [e1]
        by_cases hr : hasSub (lit "hidden")
            (List.take e tag ++ compAttrs (generateSmartId tag fp n) ++ List.drop e tag) = true
        · unfold compFixTag
          rw [if_pos (by simp_all)]
        · have hid := hasAttr_id_of_patched tag (generateSmartId tag fp n) e hm
          unfold compFixTag
          rw [if_neg (by simp_all), if_pos (by simp_all)]

theorem char_ofNat_toNat (n : Nat) (h : n < 55296) : (Char.ofNat n).toNat = n := by
  have hv : n.isValidChar := Or.inl h
  simp [Char.ofNat, hv, Char.ofNatAux, Char.toNat, UInt32.toNat, UInt32.ofNatTruncate]

theorem lowerC_not_upper (c : Char) : ¬(65 ≤ (lowerC c).toNat ∧ (lowerC c).toNat ≤ 90) := by
  unfold lowerC
  split
  · rename_i hin
    rw [char_ofNat_toNat (c.toNat + 32) (by omega)]
    omega
  · rename_i hout
    exact hout

theorem subRunsGo_mem {p : Char → Bool} {b : Bool} {s : Str} {c : Char}
    (h : c ∈ subRunsGo p b s) : c = hyc ∨ c ∈ s := by
  induction s generalizing b with
  | nil => simp [subRunsGo] at h
  | cons d t ih =>
    unfold subRunsGo at h
    split at h
    · rw [List.mem_append] at h
      rcases h with h | h
      · split at h
        · simp at h
        · simp at h
          exact Or.inl h
      · rcases ih h with h | h
        · exact Or.inl h
        · exact Or.inr (List.mem_cons_of_mem d h)
    · rcases List.mem_cons.mp h with h | h
      · exact Or.inr (by simp [h])
      · rcases ih h with h2 | h2
        · exact Or.inl h2
        · exact Or.inr (List.mem_cons_of_mem d h2)

theorem collapseGo_true_head (t : Str) :
    (subRunsGo (· == hyc) true t).head? ≠ some hyc := by
  induction t with
  | nil => simp [subRunsGo]
  | cons d t ih =>
    unfold subRunsGo
    by_cases hd : (d == hyc) = true
    · simpa [hd] using ih
    · simp only [Bool.not_eq_true] at hd
      simp only [hd, Bool.false_eq_true, if_false, List.head?_cons, ne_eq,
        Option.some.injEq]
      intro hcon
      rw [hcon] at hd
      simp at hd

theorem pfx_hh_false {X : Str} (hX : X.head? ≠ some hyc) :
    pfx (lit "--") (hyc :: X) = false := by
  cases X with
  | nil => rfl
  | cons y ys =>
    show ((hyc == hyc) && ((hyc == y) && pfx [] ys)) = false
    have hy : (hyc == y) = false := by
      cases hb : (hyc == y)
      · rfl
      · exfalso
        apply hX
        simp only [List.head?_cons, Option.some.injEq]
        exact (beq_iff_eq.mp hb).symm
    simp [hy]

theorem collapseGo_noHH (b : Bool) (t : Str) :
    countOcc (lit "--") (subRunsGo (· == hyc) b t) = 0 := by
  induction t generalizing b with
  | nil => simp [subRunsGo, countOcc]
  | cons d t ih =>
    unfold subRunsGo
    by_cases hd : (d == hyc) = true
    · cases b
      · simp only [hd, if_true, Bool.false_eq_true, if_false, List.singleton_append]
        have hstep : countOcc (lit "--") (hyc :: subRunsGo (· == hyc) true t) =
            (if pfx (lit "--") (hyc :: subRunsGo (· == hyc) true t) then 1 else 0) +
              countOcc (lit "--") (subRunsGo (· == hyc) true t) := rfl
        rw [hstep, pfx_hh_false (collapseGo_true_head t), ih true]
        rfl
      · simp only [hd, if_true, List.nil_append]
        exact ih true
    · simp only [Bool.not_eq_true] at hd
      simp only [hd, Bool.false_eq_true, if_false]
      have hstep : countOcc (lit "--") (d :: subRunsGo (· == hyc) false t) =
          (if pfx (lit "--") (d :: subRunsGo (· == hyc) false t) then 1 else 0) +
            countOcc (lit "--") (subRunsGo (· == hyc) false t) := rfl
      have hpf : pfx (lit "--") (d :: subRunsGo (· == hyc) false t) = false := by
        show ((hyc == d) && _) = false
        have : (hyc == d) = false := by
          cases hb : (hyc == d)
          · rfl
          · exfalso
            have := (beq_iff_eq.mp hb).symm
            rw [this] at hd
            simp at hd
        simp [this]
      rw [hstep, hpf, ih false]
      rfl

theorem countOcc_le_cons (r : Str) (c : Char) (t : Str) :
    countOcc r t ≤ countOcc r (c :: t) := by
  conv_rhs => unfold countOcc
  split <;> omega

theorem countOcc_append_left_le (r a b : Str) :
    countOcc r a ≤ countOcc r (a ++ b) := by
  induction a with
  | nil => simp [countOcc]
  | cons c a' ih =>
    show countOcc r (c :: a') ≤ countOcc r (c :: (a' ++ b))
    conv_lhs => unfold countOcc
    conv_rhs => unfold countOcc
    by_cases hp : pfx r (c :: a') = true
    · have hp2 : pfx r (c :: (a' ++ b)) = true := by
        have := pfx_append_right b hp
        simpa using this
      simp only [hp, hp2, if_true]
      omega
    · simp only [Bool.not_eq_true] at hp
      simp only [hp, Bool.false_eq_true, if_false]
      split <;> omega

theorem countOcc_take_le (r : Str) (k : Nat) (l : Str) :
    countOcc r (List.take k l) ≤ countOcc r l := by
  conv_rhs => rw [← List.take_append_drop k l]
  exact countOcc_append_left_le r _ _

theorem countOcc_dropWhile_le (r : Str) (p : Char → Bool) (l : Str) :
    countOcc r (l.dropWhile p) ≤ countOcc r l := by
  induction l with
  | nil => exact Nat.le_refl _
  | cons c t ih =>
    by_cases h : p c
    · rw [List.dropWhile_cons, if_pos h]
      exact Nat.le_trans ih (countOcc_le_cons r c t)
    · rw [List.dropWhile_cons, if_neg h]

theorem revDrop_decomp (p : Char → Bool) (l : Str) :
    (l.reverse.dropWhile p).reverse ++ (l.reverse.takeWhile p).reverse = l := by
  rw [← List.reverse_append, List.takeWhile_append_dropWhile, List.reverse_reverse]

theorem stripH_decomp (s : Str) :
    stripH s ++ ((s.dropWhile (· == hyc)).reverse.takeWhile (· == hyc)).reverse =
      s.dropWhile (· == hyc) := by
  unfold stripH
  exact revDrop_decomp _ _

theorem countOcc_stripH_le (r s : Str) : countOcc r (stripH s) ≤ countOcc r s := by
  have h1 : countOcc r (stripH s) ≤ countOcc r (s.dropWhile (· == hyc)) := by
    conv_rhs => rw [← stripH_decomp s]
    exact countOcc_append_left_le r _ _
  exact Nat.le_trans h1 (countOcc_dropWhile_le r _ s)

theorem mem_stripH {c : Char} {s : Str} (h : c ∈ stripH s) : c ∈ s := by
  have h2 : c ∈ s.dropWhile (· == hyc) := by
    rw [← stripH_decomp s]
    exact List.mem_append_left _ h
  have h3 : s.takeWhile (· == hyc) ++ s.dropWhile (· == hyc) = s :=
    List.takeWhile_append_dropWhile _ _
  rw [← h3]
  exact List.mem_append_right _ h2

theorem dropWhile_head_not (p : Char → Bool) (l : Str) (x : Char)
    (h : (l.dropWhile p).head? = some x) : p x = false := by
  induction l with
  | nil => simp [List.dropWhile] at h
  | cons c t ih =>
    by_cases hc : p c
    · rw [List.dropWhile_cons, if_pos hc] at h
      exact ih h
    · rw [List.dropWhile_cons, if_neg hc] at h
      simp only [List.head?_cons, Option.some.injEq] at h
      rw [← h]
      exact Bool.eq_false_iff.mpr hc

theorem stripH_head (s : Str) : (stripH s).head? ≠ some hyc := by
  intro hcon
  have hne : stripH s ≠ [] := by
    intro h0
    rw [h0] at hcon
    simp at hcon
  have h1 : (s.dropWhile (· == hyc)).head? = some hyc := by
    rw [← stripH_decomp s, List.head?_append_of_ne_nil _ hne]
    exact hcon
  have := dropWhile_head_not _ s hyc h1
  simp at this

theorem stripH_last (s : Str) : (stripH s).getLast? ≠ some hyc := by
  unfold stripH
  rw [List.getLast?_reverse]
  intro hcon
  have := dropWhile_head_not _ _ hyc hcon
  simp at this

theorem batch_norm_props (y : Str) :
    (∀ c ∈ stripH (collapseH (y.filter isIdC)), ¬(65 ≤ c.toNat ∧ c.toNat ≤ 90)) ∧
    countOcc (lit "--") (stripH (collapseH (y.filter isIdC))) = 0 ∧
    (stripH (collapseH (y.filter isIdC))).head? ≠ some hyc ∧
    (stripH (collapseH (y.filter isIdC))).getLast? ≠ some hyc := by
  refine ⟨?_, ?_, stripH_head _, stripH_last _⟩
  · intro c hc
    have h1 : c ∈ collapseH (y.filter isIdC) := mem_stripH hc
    rcases subRunsGo_mem h1 with h2 | h2
    · rw [h2]
      decide
    · have h3 := List.of_mem_filter h2
      unfold isIdC at h3
      simp only [Bool.or_eq_true, decide_eq_true_eq, beq_iff_eq] at h3
      rcases h3 with (h3 | h3) | h3
      · omega
      · omega
      · rw [h3]
        decide
  · have h0 : countOcc (lit "--") (collapseH (y.filter isIdC)) = 0 :=
      collapseGo_noHH false _
    have h1 := countOcc_stripH_le (lit "--") (collapseH (y.filter isIdC))
    omega

theorem comp_norm_props (y : Str) (k : Nat) :
    (∀ c ∈ List.take k (collapseH (lowerS y)), ¬(65 ≤ c.toNat ∧ c.toNat ≤ 90)) ∧
    countOcc (lit "--") (List.take k (collapseH (lowerS y))) = 0 := by
  constructor
  · intro c hc
    have h1 : c ∈ collapseH (lowerS y) := List.mem_of_mem_take hc
    rcases subRunsGo_mem h1 with h2 | h2
    · rw [h2]
      decide
    · obtain ⟨d, _, hd⟩ := List.mem_map.mp h2
      rw [← hd]
      exact lowerC_not_upper d
  · have h0 : countOcc (lit "--") (collapseH (lowerS y)) = 0 := collapseGo_noHH false _
    have h1 := countOcc_take_le (lit "--") k (collapseH (lowerS y))
    omega

/-- Claim C9 (amended): the batch synthesizer's identifiers are free of
ASCII upper-case letters, contain no doubled hyphen and have no leading or
trailing hyphen; the truncating variant (comprehensive_fix) guarantees the
first two properties, but (lacking any strip step) not the absence of
leading/trailing hyphens. -/
theorem C9_identifier_normalization (tag ctx fp : Str) (n : Nat) :
    (∀ c ∈ generateIdFromContext tag n ctx, ¬(65 ≤ c.toNat ∧ c.toNat ≤ 90)) ∧
    countOcc (lit "--") (generateIdFromContext tag n ctx) = 0 ∧
    (generateIdFromContext tag n ctx).head? ≠ some hyc ∧
    (generateIdFromContext tag n ctx).getLast? ≠ some hyc ∧
    (∀ c ∈ generateSmartId tag fp n, ¬(65 ≤ c.toNat ∧ c.toNat ≤ 90)) ∧
    countOcc (lit "--") (generateSmartId tag fp n) = 0 := by
  refine ⟨?_, ?_, ?_, ?_, ?_, ?_⟩
  · unfold generateIdFromContext
    exact (batch_norm_props _).1
  · unfold generateIdFromContext
    exact (batch_norm_props _).2.1
  · unfold generateIdFromContext
    exact (batch_norm_props _).2.2.1
  · unfold generateIdFromContext
    exact (batch_norm_props _).2.2.2
  · unfold generateSmartId
    exact (comp_norm_props _ 50).1
  · unfold generateSmartId
    exact (comp_norm_props _ 50).2

/-- Witness for C9's amended theorem at a concrete tag and path. -/
theorem C9_identifier_normalization_witness :
    countOcc (lit "--") (generateIdFromContext (lit "<input type=" ++ dqc :: lit "text" ++ [dqc, '>']) 1 []) = 0 ∧
    (generateIdFromContext (lit "<input type=" ++ dqc :: lit "text" ++ [dqc, '>']) 1 []).getLast? ≠ some hyc ∧
    countOcc (lit "--") (generateSmartId (lit "<input type=" ++ dqc :: lit "text" ++ [dqc, '>'])
      (lit "page.svelte") 1) = 0 := by
  have h := C9_identifier_normalization (lit "<input type=" ++ dqc :: lit "text" ++ [dqc, '>'])
    [] (lit "page.svelte") 1
  exact ⟨h.2.1, h.2.2.2.1, h.2.2.2.2.2⟩

theorem spliceSet_length (ps : List Str) (lines : List Str) (start : Nat) :
    (spliceSet lines start ps).length = lines.length := by
  induction ps generalizing lines start with
  | nil => rfl
  | cons l ls ih =>
    unfold spliceSet
    split
    · rw [ih, List.length_set]
    · exact ih _ _

theorem spliceSet_nlFree (ps : List Str) (lines : List Str) (start : Nat)
    (h1 : nlFree lines) (h2 : ∀ l ∈ ps, chMem nlc l = false) :
    nlFree (spliceSet lines start ps) := by
  induction ps generalizing lines start with
  | nil => exact h1
  | cons l ls ih =>
    unfold spliceSet
    split
    · apply ih
      · intro x hx
        rcases List.mem_or_eq_of_mem_set hx with hx2 | hx2
        · exact h1 x hx2
        · rw [hx2]
          exact h2 l (by simp)
      · intro x hx
        exact h2 x (by simp [hx])
    · exact ih _ _ h1 fun x hx => h2 x (by simp [hx])

theorem splitNl_ne_nil (s : Str) : splitNl s ≠ [] := by
  cases s with
  | nil => simp [splitNl]
  | cons c t =>
    unfold splitNl
    split
    · simp
    · split <;> simp

theorem splitNl_nlFree (s : Str) : nlFree (splitNl s) := by
  induction s with
  | nil =>
    intro l hl
    simp only [splitNl, List.mem_singleton] at hl
    rw [hl]
    rfl
  | cons c t ih =>
    intro l hl
    unfold splitNl at hl
    by_cases hc : (c == nlc) = true
    · rw [if_pos hc] at hl
      rcases List.mem_cons.mp hl with h | h
      · rw [h]
        rfl
      · exact ih l h
    · rw [if_neg hc] at hl
      cases hsp : splitNl t with
      | nil => exact absurd hsp (splitNl_ne_nil t)
      | cons l2 ls2 =>
        rw [hsp] at hl
        rcases List.mem_cons.mp hl with h | h
        · rw [h, chMem_cons]
          have h2 : chMem nlc l2 = false := ih l2 (by rw [hsp]; simp)
          simp only [Bool.not_eq_true] at hc
          rw [hc, h2]
          rfl
        · exact ih l (by rw [hsp]; exact List.mem_cons_of_mem l2 h)

theorem splitNl_single {l : Str} (h : chMem nlc l = false) : splitNl l = [l] := by
  induction l with
  | nil => rfl
  | cons c t ih =>
    rw [chMem_cons] at h
    simp only [Bool.or_eq_false_iff] at h
    unfold splitNl
    rw [if_neg (by simp [h.1]), ih h.2]

theorem splitNl_append_cons (l : Str) (h : chMem nlc l = false) (X : Str) :
    splitNl (l ++ nlc :: X) = l :: splitNl X := by
  induction l with
  | nil =>
    show splitNl (nlc :: X) = [] :: splitNl X
    conv_lhs => unfold splitNl
    rw [if_pos (by simp)]
  | cons c t ih =>
    rw [chMem_cons] at h
    simp only [Bool.or_eq_false_iff] at h
    show splitNl (c :: (t ++ nlc :: X)) = (c :: t) :: splitNl X
    conv_lhs => unfold splitNl
    rw [if_neg (by simp [h.1]), ih h.2]

theorem split_join (ls : List Str) (hne : ls ≠ []) (h : nlFree ls) :
    splitNl (joinNl ls) = ls := by
  induction ls with
  | nil => contradiction
  | cons l ls2 ih =>
    cases ls2 with
    | nil =>
      show splitNl (joinNl [l]) = [l]
      exact splitNl_single (h l (by simp))
    | cons l2 ls3 =>
      show splitNl (l ++ nlc :: joinNl (l2 :: ls3)) = l :: l2 :: ls3
      rw [splitNl_append_cons l (h l (by simp))]
      rw [ih (by simp) fun x hx => h x (by simp [hx])]

theorem compLoop_preserves (fp : Str) (fuel : Nat) :
    ∀ lines i count, nlFree lines →
      (compLoop fp fuel lines i count).1.length = lines.length ∧
      nlFree (compLoop fp fuel lines i count).1 := by
  induction fuel with
  | zero => exact fun lines i count h => ⟨rfl, h⟩
  | succ f ih =>
    intro lines i count h
    unfold compLoop
    dsimp only
    split
    · split
      · split
        · exact ih _ _ _ h
        · split
          · split
            · constructor
              · exact ((ih _ _ _ (spliceSet_nlFree _ _ _ h
                  fun x hx => splitNl_nlFree _ x hx)).1).trans (spliceSet_length _ _ _)
              · exact (ih _ _ _ (spliceSet_nlFree _ _ _ h
                  fun x hx => splitNl_nlFree _ x hx)).2
            · exact ih _ _ _ h
          · exact ih _ _ _ h
      · exact ih _ _ _ h
    · exact ⟨rfl, h⟩

/-- Claim C10 (amended): comprehensive_fix's patch transformation always
preserves the total number of newline-separated lines (its splice only
overwrites existing line slots and drops any overflow). -/
theorem C10_line_count_preserved (content fp : Str) :
    (splitNl (fixInputInContent content fp).1).length = (splitNl content).length := by
  unfold fixInputInContent
  dsimp only
  have h := compLoop_preserves fp ((splitNl content).length + 1) (splitNl content) 0 0
    (splitNl_nlFree content)
  have hne : (compLoop fp ((splitNl content).length + 1) (splitNl content) 0 0).1 ≠ [] := by
    intro h0
    have h1 := h.1
    rw [h0] at h1
    have h3 : (splitNl content).length ≠ 0 := by
      intro hz
      exact splitNl_ne_nil content (List.length_eq_zero.mp hz)
    simp at h1
    omega
  rw [split_join _ hne h.2, h.1]

/-! ### C6: counting lemmas for literal substring replacement -/

theorem replaceAll_nil (p q : Str) : replaceAll p q [] = [] := by
  cases p <;> rfl

theorem replGo_skip (p q : Str) : ∀ (t : Str) (k : Nat),
    replGo p q t k = replGo p q (List.drop k t) 0 := by
  intro t
  induction t with
  | nil => intro k; cases k <;> rfl
  | cons c t ih =>
    intro k
    cases k with
    | zero => rfl
    | succ k =>
      show replGo p q t k = replGo p q (List.drop k t) 0
      exact ih k

theorem replaceAll_cons (p q : Str) (hp : p ≠ []) (c : Char) (t : Str) :
    replaceAll p q (c :: t) =
      if pfx p (c :: t) = true then
        q ++ replaceAll p q (List.drop (p.length - 1) t)
      else c :: replaceAll p q t := by
  cases p with
  | nil => exact absurd rfl hp
  | cons a p' =>
    by_cases h : pfx (a :: p') (c :: t) = true
    · rw [if_pos h]
      show replGo (a :: p') q (c :: t) 0 = _
      conv_lhs => unfold replGo
      rw [if_pos h, replGo_skip]
      rfl
    · rw [if_neg h]
      show replGo (a :: p') q (c :: t) 0 = _
      conv_lhs => unfold replGo
      rw [if_neg h]
      rfl

theorem countOcc_cons (r : Str) (c : Char) (t : Str) :
    countOcc r (c :: t) = (if pfx r (c :: t) = true then 1 else 0) + countOcc r t := rfl

theorem pfx_decomp {p s : Str} (h : pfx p s = true) :
    s = p ++ List.drop p.length s := by
  induction p generalizing s with
  | nil => simp
  | cons a p' ih =>
    cases s with
    | nil => simp [pfx] at h
    | cons b v =>
      simp only [pfx, Bool.and_eq_true, beq_iff_eq] at h
      have h3 := ih h.2
      simp only [List.length_cons, List.cons_append, List.drop_succ_cons]
      rw [h.1, ← h3]

theorem pfx_of_pfx_append_left {u x b : Str} (h : pfx u (x ++ b) = true)
    (hle : u.length ≤ x.length) : pfx u x = true := by
  induction u generalizing x with
  | nil => rfl
  | cons e u' ih =>
    cases x with
    | nil => simp at hle
    | cons c x' =>
      simp only [List.cons_append, pfx, Bool.and_eq_true] at h ⊢
      refine ⟨h.1, ih h.2 ?_⟩
      simp only [List.length_cons] at hle
      omega

theorem pfx_of_pfx_append_long {u x b : Str} (h : pfx u (x ++ b) = true)
    (hge : x.length ≤ u.length) : pfx x u = true := by
  induction x generalizing u with
  | nil => rfl
  | cons c x' ih =>
    cases u with
    | nil => simp at hge
    | cons e u' =>
      simp only [List.cons_append, pfx, Bool.and_eq_true, beq_iff_eq] at h ⊢
      refine ⟨(h.1).symm, ih h.2 ?_⟩
      simp only [List.length_cons] at hge
      omega

theorem pfx_append_false {u x b : Str} (hux : pfx u x = false)
    (hxu : pfx x u = false) : pfx u (x ++ b) = false := by
  cases h : pfx u (x ++ b) with
  | false => rfl
  | true =>
    by_cases hl : u.length ≤ x.length
    · rw [pfx_of_pfx_append_left h hl] at hux
      exact hux
    · push_neg at hl
      rw [pfx_of_pfx_append_long h (Nat.le_of_lt hl)] at hxu
      exact hxu

theorem chMem_of_mem {c : Char} {s : Str} (h : c ∈ s) : chMem c s = true := by
  induction s with
  | nil => cases h
  | cons d t ih =>
    rw [chMem_cons]
    rcases List.mem_cons.mp h with h1 | h2
    · simp [h1]
    · simp [ih h2]

theorem chMem_false_iff (c : Char) (s : Str) : chMem c s = false ↔ ¬(c ∈ s) := by
  constructor
  · intro h hc
    rw [chMem_of_mem hc] at h
    exact absurd h (by simp)
  · intro h
    cases hx : chMem c s with
    | false => rfl
    | true =>
      exfalso
      apply h
      simp only [chMem, List.any_eq_true, beq_iff_eq] at hx
      obtain ⟨a, ha, hab⟩ := hx
      rw [hab] at ha
      exact ha

theorem chMem_drop_false {c : Char} {t : Str} (h : chMem c t = false) (k : Nat) :
    chMem c (List.drop k t) = false := by
  rw [chMem_false_iff] at h ⊢
  intro hc
  exact h (List.mem_of_mem_drop hc)

/-- If a prefix match of `p` extends past `x` into `d :: b`, the character
`d` occurs in `p`. -/
theorem chMem_of_pfx_past {p x b : Str} {d : Char}
    (h : pfx p (x ++ d :: b) = true) (hl : x.length < p.length) : d ∈ p := by
  have hd := pfx_decomp h
  have htake : List.take p.length (x ++ d :: b) = p := by
    conv_lhs => rw [hd]
    simp
  rw [List.take_append_eq_append_take] at htake
  have hmem : d ∈ List.take (p.length - x.length) (d :: b) := by
    cases hk : p.length - x.length with
    | zero => omega
    | succ m => simp
  rw [← htake]
  exact List.mem_append_right _ hmem

theorem countOcc_append (r : Str) (hr : r ≠ []) :
    ∀ (a b : Str), noStraddle a r →
      countOcc r (a ++ b) = countOcc r a + countOcc r b := by
  intro a
  induction a with
  | nil =>
    intro b _
    simp [countOcc]
  | cons c a' ih =>
    intro b hns
    have hns' : noStraddle a' r := by
      intro j hj1 hj2 hj3
      have h4 := hns j hj1 hj2 (by simp only [List.length_cons]; omega)
      have h5 : (c :: a').length - j = (a'.length - j) + 1 := by
        simp only [List.length_cons]
        omega
      rw [h5] at h4
      simpa using h4
    show countOcc r (c :: (a' ++ b)) = countOcc r (c :: a') + countOcc r b
    rw [countOcc_cons r c (a' ++ b), countOcc_cons r c a']
    rw [ih b hns']
    have hhead : pfx r (c :: (a' ++ b)) = pfx r (c :: a') := by
      by_cases hlen : r.length ≤ (c :: a').length
      · cases hpa : pfx r (c :: a') with
        | true => simpa using pfx_append_right b hpa
        | false =>
          cases hpb : pfx r (c :: (a' ++ b)) with
          | false => rfl
          | true =>
            have h6 := pfx_of_pfx_append_left (b := b) (by simpa using hpb) hlen
            rw [hpa] at h6
            exact h6.symm
      · push_neg at hlen
        have h1 : pfx r (c :: a') = false := pfx_false_of_long hlen
        have h2 : pfx r (c :: (a' ++ b)) = false := by
          cases hpb : pfx r (c :: (a' ++ b)) with
          | false => rfl
          | true =>
            exfalso
            have hlong : pfx (c :: a') r = true :=
              pfx_of_pfx_append_long (b := b) (by simpa using hpb) (Nat.le_of_lt hlen)
            have hdec := pfx_decomp hlong
            have htake : List.take (c :: a').length r = c :: a' := by
              conv_lhs => rw [hdec]
              simp
            have h7 := hns (c :: a').length hlen (by simp) (le_refl _)
            rw [Nat.sub_self, List.drop_zero] at h7
            exact absurd htake.symm h7
        rw [h1, h2]
    rw [hhead]
    omega

theorem pfx_nlc_false (p : Str) (hp : p ≠ []) (hnp : chMem nlc p = false)
    (b : Str) : pfx p (nlc :: b) = false := by
  cases p with
  | nil => exact absurd rfl hp
  | cons e p' =>
    rw [chMem_cons] at hnp
    simp only [Bool.or_eq_false_iff] at hnp
    simp only [pfx]
    rw [hnp.1]
    rfl

/-- Through `replaceAll p q`, a proper suffix of `r` keeps or loses its
prefix status unchanged, provided no suffix of `r` is prefix-comparable
with `p` or with `q` (so a match of that suffix can neither resume inside
a replaced span nor inside an inserted replacement). -/
theorem pfx_replaceAll_aux (p q r : Str) (hp : p ≠ [])
    (hsp : suffCond r p) (hsq : suffCond r q) :
    ∀ (n : Nat) (t : Str), t.length ≤ n → ∀ j, 0 < j →
      pfx (List.drop j r) (replaceAll p q t) = pfx (List.drop j r) t := by
  intro n
  induction n with
  | zero =>
    intro t ht j hj
    have h0 : t = [] := List.length_eq_zero.mp (Nat.le_zero.mp ht)
    subst h0
    rw [replaceAll_nil]
  | succ n ihn =>
    intro t ht j hj
    by_cases hjr : r.length ≤ j
    · have h0 : List.drop j r = [] := List.drop_eq_nil_of_le hjr
      rw [h0]
      rfl
    · push_neg at hjr
      cases t with
      | nil => rw [replaceAll_nil]
      | cons c t' =>
        rw [replaceAll_cons p q hp c t']
        by_cases hm : pfx p (c :: t') = true
        · rw [if_pos hm]
          have hc := hsp j hjr hj
          have hcq := hsq j hjr hj
          have hc1 : pfx (List.drop j r) p = false := by
            cases hx : pfx (List.drop j r) p with
            | false => rfl
            | true => exact absurd (Or.inl hx) hc
          have hc2 : pfx p (List.drop j r) = false := by
            cases hx : pfx p (List.drop j r) with
            | false => rfl
            | true => exact absurd (Or.inr hx) hc
          have hq1 : pfx (List.drop j r) q = false := by
            cases hx : pfx (List.drop j r) q with
            | false => rfl
            | true => exact absurd (Or.inl hx) hcq
          have hq2 : pfx q (List.drop j r) = false := by
            cases hx : pfx q (List.drop j r) with
            | false => rfl
            | true => exact absurd (Or.inr hx) hcq
          have hR : pfx (List.drop j r) (c :: t') = false := by
            have hd := pfx_decomp hm
            rw [hd]
            exact pfx_append_false hc1 hc2
          have hL : pfx (List.drop j r)
              (q ++ replaceAll p q (List.drop (p.length - 1) t')) = false :=
            pfx_append_false hq1 hq2
          rw [hL, hR]
        · rw [if_neg hm]
          cases hdj : List.drop j r with
          | nil =>
            exfalso
            have := List.drop_eq_nil_iff.mp hdj
            omega
          | cons e u' =>
            have hu' : List.drop (j + 1) r = u' := by
              have h8 := List.drop_drop 1 j r
              rw [hdj] at h8
              simpa [Nat.add_comm] using h8.symm
            have hrec := ihn t' (by simp only [List.length_cons] at ht; omega)
              (j + 1) (by omega)
            rw [hu'] at hrec
            simp only [pfx]
            rw [hrec]

theorem countOcc_replaceAll_pres (p q r : Str) (hp : p ≠ []) (hr : r ≠ [])
    (hrp : countOcc r p = 0) (hrq : countOcc r q = 0)
    (hnsp : noStraddle p r) (hnsq : noStraddle q r)
    (hsp : suffCond r p) (hsq : suffCond r q) :
    ∀ (n : Nat) (s : Str), s.length ≤ n →
      countOcc r (replaceAll p q s) = countOcc r s := by
  intro n
  induction n with
  | zero =>
    intro s hs
    have h0 : s = [] := List.length_eq_zero.mp (Nat.le_zero.mp hs)
    subst h0
    rw [replaceAll_nil]
  | succ n ihn =>
    intro s hs
    cases s with
    | nil => rw [replaceAll_nil]
    | cons c t =>
      rw [replaceAll_cons p q hp c t]
      by_cases hm : pfx p (c :: t) = true
      · rw [if_pos hm]
        have hd := pfx_decomp hm
        rw [countOcc_append r hr q _ hnsq, hrq]
        have hdrop : List.drop (p.length - 1) t = List.drop p.length (c :: t) := by
          cases p with
          | nil => exact absurd rfl hp
          | cons a p' => simp
        rw [hdrop]
        have hp1 : 0 < p.length := List.length_pos.mpr hp
        have hlen2 : (List.drop p.length (c :: t)).length ≤ n := by
          rw [List.length_drop]
          simp only [List.length_cons] at hs ⊢
          omega
        rw [ihn _ hlen2]
        conv_rhs => rw [hd]
        rw [countOcc_append r hr p _ hnsp, hrp]
      · rw [if_neg hm]
        rw [countOcc_cons r c (replaceAll p q t), countOcc_cons r c t]
        rw [ihn t (by simp only [List.length_cons] at hs; omega)]
        have hhead : pfx r (c :: replaceAll p q t) = pfx r (c :: t) := by
          cases r with
          | nil => exact absurd rfl hr
          | cons e r' =>
            simp only [pfx]
            have h9 := pfx_replaceAll_aux p q (e :: r') hp hsp hsq
              t.length t (le_refl _) 1 (by omega)
            have h9' : pfx r' (replaceAll p q t) = pfx r' t := by simpa using h9
            rw [h9']
        rw [hhead]

theorem RA_pres (p q r : Str) (hp : p ≠ []) (hr : r ≠ [])
    (hrp : countOcc r p = 0) (hrq : countOcc r q = 0)
    (hnsp : noStraddle p r) (hnsq : noStraddle q r)
    (hsp : suffCond r p) (hsq : suffCond r q) (s : Str) :
    countOcc r (replaceAll p q s) = countOcc r s :=
  countOcc_replaceAll_pres p q r hp hr hrp hrq hnsp hnsq hsp hsq s.length s
    (le_refl _)

theorem countOcc_replaceAll_plus (p r : Str) (hp : p ≠ []) (hr : r ≠ [])
    (hrp : countOcc r p = 0) (hpp : countOcc p p = 1) (hrr : countOcc r r = 1)
    (hnspr : noStraddle p r) (hnsrr : noStraddle r r) (hnspp : noStraddle p p)
    (hsp : suffCond r p) (hsr : suffCond r r) :
    ∀ (n : Nat) (s : Str), s.length ≤ n →
      countOcc r (replaceAll p r s) = countOcc r s + countOcc p s := by
  intro n
  induction n with
  | zero =>
    intro s hs
    have h0 : s = [] := List.length_eq_zero.mp (Nat.le_zero.mp hs)
    subst h0
    rw [replaceAll_nil]
    rfl
  | succ n ihn =>
    intro s hs
    cases s with
    | nil =>
      rw [replaceAll_nil]
      rfl
    | cons c t =>
      rw [replaceAll_cons p r hp c t]
      by_cases hm : pfx p (c :: t) = true
      · rw [if_pos hm]
        have hd := pfx_decomp hm
        rw [countOcc_append r hr r _ hnsrr, hrr]
        have hdrop : List.drop (p.length - 1) t = List.drop p.length (c :: t) := by
          cases p with
          | nil => exact absurd rfl hp
          | cons a p' => simp
        rw [hdrop]
        have hp1 : 0 < p.length := List.length_pos.mpr hp
        have hlen2 : (List.drop p.length (c :: t)).length ≤ n := by
          rw [List.length_drop]
          simp only [List.length_cons] at hs ⊢
          omega
        rw [ihn _ hlen2]
        conv_rhs => rw [hd]
        rw [countOcc_append r hr p _ hnspr, hrp,
          countOcc_append p hp p _ hnspp, hpp]
        omega
      · rw [if_neg hm]
        rw [countOcc_cons r c (replaceAll p r t), countOcc_cons r c t,
          countOcc_cons p c t]
        rw [ihn t (by simp only [List.length_cons] at hs; omega)]
        have hhead : pfx r (c :: replaceAll p r t) = pfx r (c :: t) := by
          cases r with
          | nil => exact absurd rfl hr
          | cons e r' =>
            simp only [pfx]
            have h9 := pfx_replaceAll_aux p (e :: r') (e :: r') hp hsp hsr
              t.length t (le_refl _) 1 (by omega)
            have h9' : pfx r' (replaceAll p (e :: r') t) = pfx r' t := by
              simpa using h9
            rw [h9']
        rw [hhead, if_neg hm]
        omega

theorem RA_plus (p r : Str) (hp : p ≠ []) (hr : r ≠ [])
    (hrp : countOcc r p = 0) (hpp : countOcc p p = 1) (hrr : countOcc r r = 1)
    (hnspr : noStraddle p r) (hnsrr : noStraddle r r) (hnspp : noStraddle p p)
    (hsp : suffCond r p) (hsr : suffCond r r) (s : Str) :
    countOcc r (replaceAll p r s) = countOcc r s + countOcc p s :=
  countOcc_replaceAll_plus p r hp hr hrp hpp hrr hnspr hnsrr hnspp hsp hsr
    s.length s (le_refl _)

theorem countOcc_replaceAll_zero (p q : Str) (hp : p ≠ [])
    (hpq : countOcc p q = 0) (hnsq : noStraddle q p)
    (hspp : suffCond p p) (hspq : suffCond p q) :
    ∀ (n : Nat) (s : Str), s.length ≤ n →
      countOcc p (replaceAll p q s) = 0 := by
  intro n
  induction n with
  | zero =>
    intro s hs
    have h0 : s = [] := List.length_eq_zero.mp (Nat.le_zero.mp hs)
    subst h0
    rw [replaceAll_nil]
    rfl
  | succ n ihn =>
    intro s hs
    cases s with
    | nil =>
      rw [replaceAll_nil]
      rfl
    | cons c t =>
      rw [replaceAll_cons p q hp c t]
      by_cases hm : pfx p (c :: t) = true
      · rw [if_pos hm]
        rw [countOcc_append p hp q _ hnsq, hpq]
        have hp1 : 0 < p.length := List.length_pos.mpr hp
        have hlen2 : (List.drop (p.length - 1) t).length ≤ n := by
          rw [List.length_drop]
          simp only [List.length_cons] at hs
          omega
        rw [ihn _ hlen2]
      · rw [if_neg hm]
        rw [countOcc_cons p c (replaceAll p q t)]
        rw [ihn t (by simp only [List.length_cons] at hs; omega)]
        have hhead : pfx p (c :: replaceAll p q t) = pfx p (c :: t) := by
          cases p with
          | nil => rfl
          | cons e p' =>
            simp only [pfx]
            have h9 := pfx_replaceAll_aux (e :: p') q (e :: p') (by simp)
              hspp hspq t.length t (le_refl _) 1 (by omega)
            have h9' : pfx p' (replaceAll (e :: p') q t) = pfx p' t := by
              simpa using h9
            rw [h9']
        rw [hhead, if_neg hm]

theorem RA_zero (p q : Str) (hp : p ≠ [])
    (hpq : countOcc p q = 0) (hnsq : noStraddle q p)
    (hspp : suffCond p p) (hspq : suffCond p q) (s : Str) :
    countOcc p (replaceAll p q s) = 0 :=
  countOcc_replaceAll_zero p q hp hpq hnsq hspp hspq s.length s (le_refl _)

theorem countOcc_append_sep (r : Str) (hr : r ≠ []) (hnl : chMem nlc r = false) :
    ∀ (a b : Str), countOcc r (a ++ nlc :: b) = countOcc r a + countOcc r b := by
  intro a
  induction a with
  | nil =>
    intro b
    show countOcc r (nlc :: b) = countOcc r [] + countOcc r b
    rw [countOcc_cons, pfx_nlc_false r hr hnl b]
    simp [countOcc]
  | cons c a' ih =>
    intro b
    show countOcc r (c :: (a' ++ nlc :: b)) = countOcc r (c :: a') + countOcc r b
    rw [countOcc_cons r c (a' ++ nlc :: b), countOcc_cons r c a']
    rw [ih b]
    have hhead : pfx r (c :: (a' ++ nlc :: b)) = pfx r (c :: a') := by
      by_cases hlen : r.length ≤ (c :: a').length
      · cases hpa : pfx r (c :: a') with
        | true => simpa using pfx_append_right (nlc :: b) hpa
        | false =>
          cases hpb : pfx r (c :: (a' ++ nlc :: b)) with
          | false => rfl
          | true =>
            have h6 := pfx_of_pfx_append_left (b := nlc :: b)
              (by simpa using hpb) hlen
            rw [hpa] at h6
            exact h6.symm
      · push_neg at hlen
        have h1 : pfx r (c :: a') = false := pfx_false_of_long hlen
        have h2 : pfx r (c :: (a' ++ nlc :: b)) = false := by
          cases hpb : pfx r (c :: (a' ++ nlc :: b)) with
          | false => rfl
          | true =>
            exfalso
            have hmem : nlc ∈ r :=
              chMem_of_pfx_past (x := c :: a') (by simpa using hpb) hlen
            rw [chMem_of_mem hmem] at hnl
            exact absurd hnl (by simp)
        rw [h1, h2]
    rw [hhead]
    omega

theorem join_split (s : Str) : joinNl (splitNl s) = s := by
  induction s with
  | nil => rfl
  | cons c t ih =>
    show joinNl (splitNl (c :: t)) = c :: t
    unfold splitNl
    by_cases hc : (c == nlc) = true
    · rw [if_pos hc]
      cases hst : splitNl t with
      | nil => exact absurd hst (splitNl_ne_nil t)
      | cons l ls =>
        rw [hst] at ih
        show joinNl ([] :: l :: ls) = c :: t
        show [] ++ nlc :: joinNl (l :: ls) = c :: t
        simp only [List.nil_append]
        rw [ih]
        have hce : c = nlc := by simpa using hc
        rw [hce]
    · rw [if_neg hc]
      cases hst : splitNl t with
      | nil => exact absurd hst (splitNl_ne_nil t)
      | cons l ls =>
        rw [hst] at ih
        cases ls with
        | nil =>
          show joinNl [c :: l] = c :: t
          show c :: l = c :: t
          have h2 : joinNl [l] = t := ih
          have h3 : l = t := h2
          rw [h3]
        | cons l2 ls2 =>
          show joinNl ((c :: l) :: l2 :: ls2) = c :: t
          show (c :: l) ++ nlc :: joinNl (l2 :: ls2) = c :: t
          rw [show (c :: l) ++ nlc :: joinNl (l2 :: ls2) =
            c :: (l ++ nlc :: joinNl (l2 :: ls2)) from rfl]
          rw [show l ++ nlc :: joinNl (l2 :: ls2) =
            joinNl (l :: l2 :: ls2) from rfl, ih]

theorem countOcc_joinNl (r : Str) (hr : r ≠ []) (hnl : chMem nlc r = false) :
    ∀ ls : List Str, countOcc r (joinNl ls) = (ls.map (countOcc r)).sum := by
  intro ls
  induction ls with
  | nil => simp [joinNl, countOcc]
  | cons l ls2 ih =>
    cases ls2 with
    | nil => simp [joinNl]
    | cons l2 ls3 =>
      show countOcc r (l ++ nlc :: joinNl (l2 :: ls3)) = _
      rw [countOcc_append_sep r hr hnl, ih]
      simp

theorem replaceAll_append_sep (p q : Str) (hp : p ≠ [])
    (hnp : chMem nlc p = false) :
    ∀ (n : Nat) (a : Str), a.length ≤ n → ∀ b,
      replaceAll p q (a ++ nlc :: b) =
        replaceAll p q a ++ nlc :: replaceAll p q b := by
  intro n
  induction n with
  | zero =>
    intro a ha b
    have h0 : a = [] := List.length_eq_zero.mp (Nat.le_zero.mp ha)
    subst h0
    show replaceAll p q (nlc :: b) = replaceAll p q [] ++ nlc :: replaceAll p q b
    rw [replaceAll_nil, replaceAll_cons p q hp nlc b,
      if_neg (by simp [pfx_nlc_false p hp hnp b])]
    rfl
  | succ n ihn =>
    intro a ha b
    cases a with
    | nil =>
      show replaceAll p q (nlc :: b) = replaceAll p q [] ++ nlc :: replaceAll p q b
      rw [replaceAll_nil, replaceAll_cons p q hp nlc b,
        if_neg (by simp [pfx_nlc_false p hp hnp b])]
      rfl
    | cons c a' =>
      by_cases hm : pfx p (c :: (a' ++ nlc :: b)) = true
      · have hpl : p.length ≤ (c :: a').length := by
          by_contra hcon
          push_neg at hcon
          have hmem : nlc ∈ p :=
            chMem_of_pfx_past (x := c :: a') (by simpa using hm) hcon
          rw [chMem_of_mem hmem] at hnp
          exact absurd hnp (by simp)
        have hma : pfx p (c :: a') = true :=
          pfx_of_pfx_append_left (b := nlc :: b) (by simpa using hm) hpl
        show replaceAll p q (c :: (a' ++ nlc :: b)) =
          replaceAll p q (c :: a') ++ nlc :: replaceAll p q b
        rw [replaceAll_cons p q hp c (a' ++ nlc :: b), if_pos hm]
        rw [replaceAll_cons p q hp c a', if_pos hma]
        have hple : p.length - 1 ≤ a'.length := by
          simp only [List.length_cons] at hpl
          omega
        rw [List.drop_append_of_le_length hple]
        rw [ihn (List.drop (p.length - 1) a')
          (by rw [List.length_drop]; simp only [List.length_cons] at ha; omega) b]
        simp [List.append_assoc]
      · have hma : pfx p (c :: a') = false := by
          cases hx : pfx p (c :: a') with
          | false => rfl
          | true =>
            have h7 := pfx_append_right (nlc :: b) hx
            rw [show (c :: a') ++ nlc :: b = c :: (a' ++ nlc :: b) from rfl] at h7
            exact absurd h7 hm
        show replaceAll p q (c :: (a' ++ nlc :: b)) =
          replaceAll p q (c :: a') ++ nlc :: replaceAll p q b
        rw [replaceAll_cons p q hp c (a' ++ nlc :: b), if_neg hm]
        rw [replaceAll_cons p q hp c a', if_neg (by simp [hma])]
        rw [ihn a' (by simp only [List.length_cons] at ha; omega) b]
        rfl

theorem RA_sep (p q : Str) (hp : p ≠ []) (hnp : chMem nlc p = false)
    (a b : Str) :
    replaceAll p q (a ++ nlc :: b) =
      replaceAll p q a ++ nlc :: replaceAll p q b :=
  replaceAll_append_sep p q hp hnp a.length a (le_refl _) b

theorem RA_joinNl (p q : Str) (hp : p ≠ []) (hnp : chMem nlc p = false) :
    ∀ ls : List Str,
      replaceAll p q (joinNl ls) = joinNl (ls.map (replaceAll p q)) := by
  intro ls
  induction ls with
  | nil => simp [joinNl, replaceAll_nil]
  | cons l ls2 ih =>
    cases ls2 with
    | nil => simp [joinNl]
    | cons l2 ls3 =>
      show replaceAll p q (l ++ nlc :: joinNl (l2 :: ls3)) = _
      rw [RA_sep p q hp hnp, ih]
      rfl

theorem RA_nlFree_aux (p q : Str) (hp : p ≠ []) (hq : chMem nlc q = false) :
    ∀ (n : Nat) (s : Str), s.length ≤ n → chMem nlc s = false →
      chMem nlc (replaceAll p q s) = false := by
  intro n
  induction n with
  | zero =>
    intro s hs hnl
    have h0 : s = [] := List.length_eq_zero.mp (Nat.le_zero.mp hs)
    subst h0
    rw [replaceAll_nil]
    exact hnl
  | succ n ihn =>
    intro s hs hnl
    cases s with
    | nil =>
      rw [replaceAll_nil]
      exact hnl
    | cons c t =>
      rw [chMem_cons] at hnl
      simp only [Bool.or_eq_false_iff] at hnl
      rw [replaceAll_cons p q hp c t]
      by_cases hm : pfx p (c :: t) = true
      · rw [if_pos hm, chMem_append, hq]
        have hlen2 : (List.drop (p.length - 1) t).length ≤ n := by
          rw [List.length_drop]
          simp only [List.length_cons] at hs
          omega
        rw [ihn _ hlen2 (chMem_drop_false hnl.2 _)]
        rfl
      · rw [if_neg hm, chMem_cons, hnl.1,
          ihn t (by simp only [List.length_cons] at hs; omega) hnl.2]
        rfl

theorem RA_nlFree (p q : Str) (hp : p ≠ []) (hq : chMem nlc q = false)
    (s : Str) (hs : chMem nlc s = false) :
    chMem nlc (replaceAll p q s) = false :=
  RA_nlFree_aux p q hp hq s.length s (le_refl _) hs

theorem insertAt_map_sum (f : Str → Nat) :
    ∀ (k : Nat) (x : Str) (ls : List Str),
      ((insertAt k x ls).map f).sum = f x + (ls.map f).sum := by
  intro k
  induction k with
  | zero => intro x ls; simp [insertAt]
  | succ k ih =>
    intro x ls
    cases ls with
    | nil => simp [insertAt]
    | cons l ls' =>
      show ((l :: insertAt k x ls').map f).sum = _
      simp only [List.map_cons, List.sum_cons]
      rw [ih x ls']
      omega

theorem insertAt_getD :
    ∀ (k : Nat) (x : Str) (ls : List Str), k ≤ ls.length →
      (insertAt k x ls).getD k [] = x := by
  intro k
  induction k with
  | zero => intro x ls h; rfl
  | succ k ih =>
    intro x ls h
    cases ls with
    | nil => simp at h
    | cons l ls' =>
      show (l :: insertAt k x ls').getD (k + 1) [] = x
      simp only [List.getD_cons_succ]
      exact ih x ls' (by simp only [List.length_cons] at h; omega)

theorem insertAt_mem {x l : Str} :
    ∀ (k : Nat) (ls : List Str), l ∈ insertAt k x ls → l = x ∨ l ∈ ls := by
  intro k
  induction k with
  | zero =>
    intro ls h
    rcases List.mem_cons.mp h with h | h
    · exact Or.inl h
    · exact Or.inr h
  | succ k ih =>
    intro ls h
    cases ls with
    | nil =>
      rcases List.mem_cons.mp h with h | h
      · exact Or.inl h
      · cases h
    | cons a ls' =>
      rcases List.mem_cons.mp h with h | h
      · exact Or.inr (by simp [h])
      · rcases ih ls' h with h | h
        · exact Or.inl h
        · exact Or.inr (by simp [h])

theorem insertAt_length (x : Str) :
    ∀ (k : Nat) (ls : List Str), (insertAt k x ls).length = ls.length + 1 := by
  intro k
  induction k with
  | zero => intro ls; rfl
  | succ k ih =>
    intro ls
    cases ls with
    | nil => rfl
    | cons a ls' => simp [insertAt, ih]

theorem lastImportIdxGo_bound :
    ∀ (ls : List Str) (i : Nat) (b : Option Nat) (k : Nat),
      lastImportIdxGo ls i b = some k →
      b = some k ∨ (i ≤ k ∧ k < i + ls.length) := by
  intro ls
  induction ls with
  | nil => intro i b k h; exact Or.inl h
  | cons l rest ih =>
    intro i b k h
    have h2 := ih (i + 1)
      (if pfx (lit "import ") (pyStripWs l) = true then some i else b) k h
    rcases h2 with h2 | h2
    · by_cases hc : pfx (lit "import ") (pyStripWs l) = true
      · rw [if_pos hc] at h2
        have hik : i = k := Option.some.inj h2
        right
        subst hik
        simp only [List.length_cons]
        omega
      · rw [if_neg hc] at h2
        exact Or.inl h2
    · right
      simp only [List.length_cons]
      omega

theorem importInsertPos_le (content : Str) :
    importInsertPos content ≤ (splitNl content).length := by
  unfold importInsertPos
  cases h : lastImportIdxGo (splitNl content) 0 none with
  | none => exact Nat.zero_le _
  | some k =>
    have h2 := lastImportIdxGo_bound (splitNl content) 0 none k h
    rcases h2 with h2 | h2
    · exact absurd h2 (by simp)
    · show k + 1 ≤ (splitNl content).length
      omega

theorem getD_map (f : Str → Str) :
    ∀ (ls : List Str) (i : Nat), i < ls.length →
      (ls.map f).getD i [] = f (ls.getD i []) := by
  intro ls
  induction ls with
  | nil => intro i h; simp at h
  | cons l ls' ih =>
    intro i h
    cases i with
    | zero => rfl
    | succ i' =>
      show (ls'.map f).getD i' [] = f (ls'.getD i' [])
      exact ih i' (by simp only [List.length_cons] at h; omega)

theorem hasSub_false_countOcc {r : Str} :
    ∀ s : Str, hasSub r s = false → countOcc r s = 0 := by
  intro s
  induction s with
  | nil => intro h; rfl
  | cons c t ih =>
    intro h
    unfold hasSub at h
    simp only [Bool.or_eq_false_iff] at h
    rw [countOcc_cons, h.1, ih h.2]
    simp

theorem hasSub_of_countOcc {r : Str} (s : Str) (hc : 0 < countOcc r s) :
    hasSub r s = true := by
  cases h : hasSub r s with
  | true => rfl
  | false =>
    rw [hasSub_false_countOcc s h] at hc
    omega

theorem replaceConsole_joinNl (ls : List Str) (hnl : nlFree ls) :
    replaceConsoleStatements (joinNl ls) =
      joinNl (ls.map replaceConsoleStatements) ∧
    nlFree (ls.map replaceConsoleStatements) := by
  have step : ∀ (p q : Str), p ≠ [] → chMem nlc p = false →
      chMem nlc q = false → ∀ xs : List Str, nlFree xs →
        replaceAll p q (joinNl xs) = joinNl (xs.map (replaceAll p q)) ∧
        nlFree (xs.map (replaceAll p q)) := by
    intro p q hp hnp hnq xs hx
    refine ⟨RA_joinNl p q hp hnp xs, ?_⟩
    intro x hxm
    obtain ⟨y, hy, hyx⟩ := List.mem_map.mp hxm
    rw [← hyx]
    exact RA_nlFree p q hp hnq y (hx y hy)
  obtain ⟨e1, n1⟩ := step (lit "console.debug(") (lit "logger.debug(")
    (by decide) (by decide) (by decide) ls hnl
  obtain ⟨e2, n2⟩ := step (lit "console.error(") (lit "logger.error(")
    (by decide) (by decide) (by decide) _ n1
  obtain ⟨e3, n3⟩ := step (lit "console.warn(") (lit "logger.warn(")
    (by decide) (by decide) (by decide) _ n2
  obtain ⟨e4, n4⟩ := step (lit "console.info(") (lit "logger.info(")
    (by decide) (by decide) (by decide) _ n3
  obtain ⟨e5, n5⟩ := step (lit "console.log(") (lit "logger.info(")
    (by decide) (by decide) (by decide) _ n4
  have hlist :
      ((((ls.map (replaceAll (lit "console.debug(") (lit "logger.debug("))).map
        (replaceAll (lit "console.error(") (lit "logger.error("))).map
        (replaceAll (lit "console.warn(") (lit "logger.warn("))).map
        (replaceAll (lit "console.info(") (lit "logger.info("))).map
        (replaceAll (lit "console.log(") (lit "logger.info(")) =
      ls.map replaceConsoleStatements := by
    simp only [List.map_map]
    rfl
  constructor
  · show replaceAll (lit "console.log(") (lit "logger.info(")
      (replaceAll (lit "console.info(") (lit "logger.info(")
        (replaceAll (lit "console.warn(") (lit "logger.warn(")
          (replaceAll (lit "console.error(") (lit "logger.error(")
            (replaceAll (lit "console.debug(") (lit "logger.debug(")
              (joinNl ls))))) = _
    rw [e1, e2, e3, e4, e5, hlist]
  · rw [← hlist]
    exact n5

/-- Claim C6: for content with exactly three occurrences of console.log(
and no existing logger import, fix_console's rewrite produces content with
exactly one occurrence of the logger-import needle, zero remaining
console.log( calls, exactly three logger.info( calls added beyond those
already present and the rewritten console.info( calls, and the line at the
computed insertion slot (directly after the last import line, or the top)
is exactly the inserted import line. -/
theorem C6_console_rewriter (content : Str)
    (h3 : countOcc (lit "console.log(") content = 3)
    (hImp : hasLoggerImport content = false) :
    countOcc importFromSq (fixConsoleContent content) = 1 ∧
    countOcc (lit "console.log(") (fixConsoleContent content) = 0 ∧
    countOcc (lit "logger.info(") (fixConsoleContent content) =
      countOcc (lit "logger.info(") content +
        countOcc (lit "console.info(") content + 3 ∧
    (splitNl (fixConsoleContent content)).getD (importInsertPos content) [] =
      loggerImportLine := by
  have hcall : hasConsoleCall content = true := by
    have h5 : hasSub (lit "console.log(") content = true :=
      hasSub_of_countOcc (r := lit "console.log(") content (by rw [h3]; omega)
    unfold hasConsoleCall
    rw [h5]
    simp
  have hout : fixConsoleContent content =
      replaceConsoleStatements (addLoggerImport content) := by
    unfold fixConsoleContent
    rw [hcall, hImp]
    simp
  have hrc : ∀ c : Str, replaceConsoleStatements c =
      replaceAll (lit "console.log(") (lit "logger.info(")
        (replaceAll (lit "console.info(") (lit "logger.info(")
          (replaceAll (lit "console.warn(") (lit "logger.warn(")
            (replaceAll (lit "console.error(") (lit "logger.error(")
              (replaceAll (lit "console.debug(") (lit "logger.debug(") c)))) :=
    fun c => rfl
  have hc1count : ∀ r : Str, r ≠ [] → chMem nlc r = false →
      countOcc r (addLoggerImport content) =
        countOcc r loggerImportLine + countOcc r content := by
    intro r hr hnl
    unfold addLoggerImport
    rw [countOcc_joinNl r hr hnl, insertAt_map_sum,
      ← countOcc_joinNl r hr hnl, join_split]
  have hSq1 : countOcc importFromSq (addLoggerImport content) = 1 := by
    rw [hc1count importFromSq (by decide) (by decide)]
    have h0 : countOcc importFromSq content = 0 := by
      apply hasSub_false_countOcc
      unfold hasLoggerImport at hImp
      simp only [Bool.or_eq_false_iff] at hImp
      exact hImp.1
    rw [h0]
    decide
  have hLog1 : countOcc (lit "console.log(") (addLoggerImport content) = 3 := by
    rw [hc1count _ (by decide) (by decide), h3]
    decide
  have hInfo1 : countOcc (lit "console.info(") (addLoggerImport content) =
      countOcc (lit "console.info(") content := by
    rw [hc1count _ (by decide) (by decide)]
    have h0 : countOcc (lit "console.info(") loggerImportLine = 0 := by decide
    rw [h0]
    omega
  have hLI1 : countOcc (lit "logger.info(") (addLoggerImport content) =
      countOcc (lit "logger.info(") content := by
    rw [hc1count _ (by decide) (by decide)]
    have h0 : countOcc (lit "logger.info(") loggerImportLine = 0 := by decide
    rw [h0]
    omega
  refine ⟨?_, ?_, ?_, ?_⟩
  · rw [hout, hrc]
    rw [RA_pres (lit "console.log(") (lit "logger.info(") importFromSq
      (by decide) (by decide) (by decide) (by decide) (by decide) (by decide)
      (by decide) (by decide)]
    rw [RA_pres (lit "console.info(") (lit "logger.info(") importFromSq
      (by decide) (by decide) (by decide) (by decide) (by decide) (by decide)
      (by decide) (by decide)]
    rw [RA_pres (lit "console.warn(") (lit "logger.warn(") importFromSq
      (by decide) (by decide) (by decide) (by decide) (by decide) (by decide)
      (by decide) (by decide)]
    rw [RA_pres (lit "console.error(") (lit "logger.error(") importFromSq
      (by decide) (by decide) (by decide) (by decide) (by decide) (by decide)
      (by decide) (by decide)]
    rw [RA_pres (lit "console.debug(") (lit "logger.debug(") importFromSq
      (by decide) (by decide) (by decide) (by decide) (by decide) (by decide)
      (by decide) (by decide)]
    exact hSq1
  · rw [hout, hrc]
    exact RA_zero (lit "console.log(") (lit "logger.info(")
      (by decide) (by decide) (by decide) (by decide) (by decide) _
  · rw [hout, hrc]
    rw [RA_plus (lit "console.log(") (lit "logger.info(")
      (by decide) (by decide) (by decide) (by decide) (by decide) (by decide)
      (by decide) (by decide) (by decide) (by decide)]
    rw [RA_plus (lit "console.info(") (lit "logger.info(")
      (by decide) (by decide) (by decide) (by decide) (by decide) (by decide)
      (by decide) (by decide) (by decide) (by decide)]
    rw [RA_pres (lit "console.info(") (lit "logger.info(")
      (lit "console.log(")
      (by decide) (by decide) (by decide) (by decide) (by decide) (by decide)
      (by decide) (by decide)]
    rw [RA_pres (lit "console.warn(") (lit "logger.warn(")
      (lit "logger.info(")
      (by decide) (by decide) (by decide) (by decide) (by decide) (by decide)
      (by decide) (by decide)]
    rw [RA_pres (lit "console.error(") (lit "logger.error(")
      (lit "logger.info(")
      (by decide) (by decide) (by decide) (by decide) (by decide) (by decide)
      (by decide) (by decide)]
    rw [RA_pres (lit "console.debug(") (lit "logger.debug(")
      (lit "logger.info(")
      (by decide) (by decide) (by decide) (by decide) (by decide) (by decide)
      (by decide) (by decide)]
    rw [RA_pres (lit "console.warn(") (lit "logger.warn(")
      (lit "console.info(")
      (by decide) (by decide) (by decide) (by decide) (by decide) (by decide)
      (by decide) (by decide)]
    rw [RA_pres (lit "console.error(") (lit "logger.error(")
      (lit "console.info(")
      (by decide) (by decide) (by decide) (by decide) (by decide) (by decide)
      (by decide) (by decide)]
    rw [RA_pres (lit "console.debug(") (lit "logger.debug(")
      (lit "console.info(")
      (by decide) (by decide) (by decide) (by decide) (by decide) (by decide)
      (by decide) (by decide)]
    rw [RA_pres (lit "console.warn(") (lit "logger.warn(")
      (lit "console.log(")
      (by decide) (by decide) (by decide) (by decide) (by decide) (by decide)
      (by decide) (by decide)]
    rw [RA_pres (lit "console.error(") (lit "logger.error(")
      (lit "console.log(")
      (by decide) (by decide) (by decide) (by decide) (by decide) (by decide)
      (by decide) (by decide)]
    rw [RA_pres (lit "console.debug(") (lit "logger.debug(")
      (lit "console.log(")
      (by decide) (by decide) (by decide) (by decide) (by decide) (by decide)
      (by decide) (by decide)]
    rw [hLI1, hInfo1, hLog1]
  · have hpos := importInsertPos_le content
    have hLSlen := insertAt_length loggerImportLine (importInsertPos content)
      (splitNl content)
    have hLSnl : nlFree (insertAt (importInsertPos content) loggerImportLine
        (splitNl content)) := by
      intro x hx
      rcases insertAt_mem _ _ hx with h | h
      · rw [h]; decide
      · exact splitNl_nlFree content x h
    have h1 : fixConsoleContent content =
        replaceConsoleStatements (joinNl (insertAt (importInsertPos content)
          loggerImportLine (splitNl content))) := hout
    obtain ⟨he, hn⟩ := replaceConsole_joinNl _ hLSnl
    rw [h1, he]
    have hne2 : (insertAt (importInsertPos content) loggerImportLine
        (splitNl content)).map replaceConsoleStatements ≠ [] := by
      intro h0
      rw [List.map_eq_nil_iff] at h0
      rw [h0] at hLSlen
      simp at hLSlen
    rw [split_join _ hne2 hn]
    have hlt : importInsertPos content <
        (insertAt (importInsertPos content) loggerImportLine
          (splitNl content)).length := by
      rw [hLSlen]
      omega
    rw [getD_map replaceConsoleStatements _ _ hlt]
    rw [insertAt_getD _ _ _ hpos]
    decide

theorem C6_console_rewriter_witness :
    countOcc (lit "console.log(") c6Sample = 3 ∧
    hasLoggerImport c6Sample = false ∧
    (countOcc importFromSq (fixConsoleContent c6Sample) = 1 ∧
     countOcc (lit "console.log(") (fixConsoleContent c6Sample) = 0 ∧
     countOcc (lit "logger.info(") (fixConsoleContent c6Sample) =
       countOcc (lit "logger.info(") c6Sample +
         countOcc (lit "console.info(") c6Sample + 3 ∧
     (splitNl (fixConsoleContent c6Sample)).getD (importInsertPos c6Sample) [] =
       loggerImportLine) :=
  ⟨by decide, by decide, C6_console_rewriter c6Sample (by decide) (by decide)⟩
